import Mathlib

/-!
# Verification of the order_book engine

A shallow embedding of the repository's order-book engine
(`order_book/order_book.py`, `order_book/order_linked_list.py`,
`order_book/best_bid_offer.py`, `order_book/market.py`, `order_book/message.py`)
and proofs about it.

Modelling conventions:
* Python floats (prices) are modelled as exact rationals `ℚ`; the wire price is
  a fixed-point integer scaled by 1e9, so every normalized price is an exact
  rational and all comparisons the code performs (`==`, `<`, `>`, truthiness
  against `0.0`) are exact on the values the feed produces.
* Python `int` counters that are incremented/decremented (`_depth`,
  `_num_orders`) are modelled as `ℤ`; message sizes are non-negative (`ℕ`).
* The mutable doubly-linked list of `OrderNode`s is modelled as a `List`
  in chain order (head first).  The `orders` id-index, which in Python holds an
  aliased pointer to the node object inside its level's chain, is modelled as a
  handle `(side, price)`: the only fields of the dict-fetched node the code
  reads before locating the level are `side` and `price`, and the node itself
  is recovered as the unique chain member carrying the order id (the id-index
  invariant of the book).
* `sortedcontainers.SortedDict` is modelled as an association list sorted by
  strictly ascending key; `peekitem(-1)` is `getLast?` and `peekitem(0)` is
  `head?`.
* Exceptions (`raise`, failed `assert`, `KeyError`) are modelled with
  `Except`.  Because a Python exception leaves the partially mutated book
  behind, book-level operations return their error together with the state at
  raise time: `Except (String × OrderBook) OrderBook`.  Every primitive
  operation validates before mutating, so it reports the unchanged input
  state; only `_modify`'s cancel-then-add sequence can surface an error after
  a mutation, and there the reported state is the inner cancel's result.
-/

/-- `databento_dbn.UNDEF_PRICE` (`i64` max), kept unscaled by `Message`. -/
def UNDEF_PRICE : ℚ := 9223372036854775807

/-- `databento.RecordFlags.F_TOB` (64). -/
def F_TOB : Nat := 64

/-- `databento.RecordFlags.F_LAST` (128). -/
def F_LAST : Nat := 128

/-- `message.py`: the sanitized message the books consume.  `price` is already
normalized (raw / 1e9, or the sentinel `UNDEF_PRICE` kept as-is). -/
structure Message where
  action : Char
  order_id : Nat
  size : Nat
  publisher_id : Nat
  instrument_id : Nat
  ts_event : Nat
  side : Char
  ts_recv : Nat
  flags : Nat
  price : ℚ
deriving DecidableEq

/-- `order_linked_list.OrderNode` without the `prev`/`next` links (the chain
order of the enclosing list carries them). -/
structure OrderNode where
  order_id : Nat
  price : ℚ
  size : Nat
  publisher_id : Nat
  instrument_id : Nat
  side : Char
  ts_recv : Nat
deriving DecidableEq

/-- Node construction as in `OrderLinkedList.append` / `TopOfBookOrderBook._add`. -/
def OrderNode.ofMessage (m : Message) : OrderNode :=
  ⟨m.order_id, m.price, m.size, m.publisher_id, m.instrument_id, m.side, m.ts_recv⟩

/-- `order_linked_list.OrderLinkedList`: the FIFO of resting orders at one
price.  `depth` and `num_orders` model the cached `_depth` / `_num_orders`
counters; `nodes` is the doubly-linked chain from `_head` to `_tail`. -/
structure OrderLinkedList where
  price : ℚ
  depth : Int
  num_orders : Int
  nodes : List OrderNode
deriving DecidableEq

/-- `OrderLinkedList(price)`: a fresh empty level. -/
def OrderLinkedList.fresh (price : ℚ) : OrderLinkedList := ⟨price, 0, 0, []⟩

/-- `OrderLinkedList.append`: link a new node at the tail, bump the caches. -/
def OrderLinkedList.append (l : OrderLinkedList) (m : Message) : OrderLinkedList :=
  { l with num_orders := l.num_orders + 1, depth := l.depth + m.size,
           nodes := l.nodes ++ [OrderNode.ofMessage m] }

/-- Dereference the aliased node pointer: the chain member carrying the id. -/
def OrderLinkedList.findNode? (l : OrderLinkedList) (oid : Nat) : Option OrderNode :=
  l.nodes.find? (fun n => decide (n.order_id = oid))

/-- In-place `order_node.size -= amount` on the chain member carrying the id
(first match; ids are unique in a reachable chain). -/
def updateNodeSize : List OrderNode → Nat → Nat → List OrderNode
  | [], _, _ => []
  | n :: ns, oid, nsize =>
    if n.order_id = oid then { n with size := nsize } :: ns
    else n :: updateNodeSize ns oid nsize

/-- In-place `order_node.ts_recv = ts` on the chain member carrying the id. -/
def updateNodeTs : List OrderNode → Nat → Nat → List OrderNode
  | [], _, _ => []
  | n :: ns, oid, ts =>
    if n.order_id = oid then { n with ts_recv := ts } :: ns
    else n :: updateNodeTs ns oid ts

/-- `order_node.ts_recv = msg.ts_recv` performed by `_cancel` / `_modify`
through the aliased node: update the chain member in place. -/
def OrderLinkedList.setTsRecv (l : OrderLinkedList) (oid ts : Nat) : OrderLinkedList :=
  { l with nodes := updateNodeTs l.nodes oid ts }

/-- `OrderLinkedList.remove(order_node, amount)`: refuse `amount` above the
node's size, else decrement the node's size and the level's depth, and unlink
the node (and decrement `num_orders`) when its size reaches zero.  The Python
method receives the node object itself; the model locates it as the chain
member carrying the id (in any state the book produces the node of a resting
order is in its level's chain), and a dangling handle is returned unchanged. -/
def OrderLinkedList.remove (l : OrderLinkedList) (oid : Nat) (amount : Nat) :
    Except String OrderLinkedList :=
  match l.findNode? oid with
  | none => .ok l
  | some node =>
    if amount > node.size then
      .error "ValueError: amount is greater than existing size"
    else if node.size - amount = 0 then
      .ok { l with depth := l.depth - amount, num_orders := l.num_orders - 1,
                   nodes := l.nodes.eraseP (fun n => decide (n.order_id = oid)) }
    else
      .ok { l with depth := l.depth - amount,
                   nodes := updateNodeSize l.nodes oid (node.size - amount) }

/-- `OrderLinkedList.get_num_shares`. -/
def OrderLinkedList.get_num_shares (l : OrderLinkedList) : Int := l.depth

/-- `OrderLinkedList.get_num_orders` (also `__len__`). -/
def OrderLinkedList.get_num_orders (l : OrderLinkedList) : Int := l.num_orders

/-- `best_bid_offer.BestBidOffer`. -/
structure BestBidOffer where
  size : Int
  price : Option ℚ
deriving DecidableEq

/-- The dataclass defaults: `size = 0`, `price = None`. -/
def BestBidOffer.empty : BestBidOffer := ⟨0, none⟩

/-- Generic association-list lookup (Python `dict` access / `in`). -/
def alookup {α : Type} (l : List (Nat × α)) (k : Nat) : Option α :=
  (l.find? (fun e => decide (e.1 = k))).map (·.2)

/-- `SortedDict` access: the value at the key. -/
def sdGet? (t : List (ℚ × OrderLinkedList)) (k : ℚ) : Option OrderLinkedList :=
  (t.find? (fun e => decide (e.1 = k))).map (·.2)

/-- `SortedDict` assignment `t[k] = v`: insert at the sorted position,
replacing an existing entry for the key. -/
def sdInsert : List (ℚ × OrderLinkedList) → ℚ → OrderLinkedList →
    List (ℚ × OrderLinkedList)
  | [], k, v => [(k, v)]
  | e :: t, k, v =>
    if k < e.1 then (k, v) :: e :: t
    else if k = e.1 then (k, v) :: t
    else e :: sdInsert t k v

/-- `SortedDict` deletion `del t[k]`. -/
def sdErase (t : List (ℚ × OrderLinkedList)) (k : ℚ) : List (ℚ × OrderLinkedList) :=
  t.eraseP (fun e => decide (e.1 = k))

/-- `order_book.OrderBook`: the full-depth book.  `orders` maps an order id to
the handle `(side, price)` of its aliased node (see the module comment);
`bids` / `offers` are the two sorted price-level maps. -/
structure OrderBook where
  instrument : Nat
  publisher : Nat
  ts_last_update : Nat
  orders : List (Nat × Char × ℚ)
  bids : List (ℚ × OrderLinkedList)
  offers : List (ℚ × OrderLinkedList)
deriving DecidableEq

/-- `OrderBook.__init__`. -/
def OrderBook.fresh (instrument publisher : Nat) : OrderBook :=
  ⟨instrument, publisher, 0, [], [], []⟩

/-- `OrderBook._clear`. -/
def OrderBook._clear (b : OrderBook) : OrderBook :=
  { b with orders := [], bids := [], offers := [] }

/-- The map `_side_dict` returns: offers for `'A'`, bids otherwise (the caller
checks validity separately, mirroring `_side_dict`'s `raise`). -/
def OrderBook.sideTree (b : OrderBook) (side : Char) : List (ℚ × OrderLinkedList) :=
  if side = 'A' then b.offers else b.bids

/-- Write back the map `_side_dict` returned (its in-place mutation). -/
def OrderBook.setSideTree (b : OrderBook) (side : Char)
    (t : List (ℚ × OrderLinkedList)) : OrderBook :=
  if side = 'A' then { b with offers := t } else { b with bids := t }

/-- `'A'` and `'B'` are the valid sides of `_side_dict`. -/
def sideOk (side : Char) : Prop := side = 'A' ∨ side = 'B'

instance (side : Char) : Decidable (sideOk side) := by
  unfold sideOk; infer_instance

/-- `OrderBook._add`: assert the id is fresh and the price real, pick the side
map, create the level on first use, append the node, index it. -/
def OrderBook._add (b : OrderBook) (m : Message) : Except (String × OrderBook) OrderBook :=
  if (alookup b.orders m.order_id).isSome then
    .error ("AssertionError: order_id already in orders", b)
  else if m.price = UNDEF_PRICE then
    .error ("AssertionError: price is UNDEF_PRICE", b)
  else if sideOk m.side then
    let tree := b.sideTree m.side
    let lvl := (sdGet? tree m.price).getD (OrderLinkedList.fresh m.price)
    let b' := b.setSideTree m.side (sdInsert tree m.price (lvl.append m))
    .ok { b' with orders := (m.order_id, m.side, m.price) :: b'.orders }
  else .error ("ValueError: not a valid side", b)

/-- `OrderBook._cancel`: look the node up through the id index, remove
`msg.size` from it in its level, and on full removal drop the index entry and,
if the level emptied, the level; on partial removal bump the node's
`ts_recv`. -/
def OrderBook._cancel (b : OrderBook) (m : Message) : Except (String × OrderBook) OrderBook :=
  match alookup b.orders m.order_id with
  | none => .error ("KeyError: order_id not in orders", b)
  | some (side, price) =>
    if sideOk side then
      let tree := b.sideTree side
      match sdGet? tree price with
      | none => .error ("KeyError: no level at the node's price", b)
      | some lvl =>
        match lvl.findNode? m.order_id with
        | none => .error ("KeyError: dangling order handle", b)
        | some node =>
          match lvl.remove m.order_id m.size with
          | .error e => .error (e, b)
          | .ok lvl' =>
            if node.size - m.size = 0 then
              let tree1 := sdInsert tree price lvl'
              let tree2 := if lvl'.num_orders = 0 then sdErase tree1 price else tree1
              .ok { b.setSideTree side tree2 with
                    orders := b.orders.eraseP (fun e => decide (e.1 = m.order_id)) }
            else
              .ok (b.setSideTree side (sdInsert tree price (lvl'.setTsRecv m.order_id m.ts_recv)))
    else .error ("ValueError: not a valid side", b)

/-- `OrderBook._modify`: same-side only; a price change or size increase is
cancel-then-add (with the modify message itself), a size decrease shrinks the
node in place and bumps its `ts_recv`. -/
def OrderBook._modify (b : OrderBook) (m : Message) : Except (String × OrderBook) OrderBook :=
  match alookup b.orders m.order_id with
  | none => .error ("KeyError: order_id not in orders", b)
  | some (side, price) =>
    if sideOk side then
      match sdGet? (b.sideTree side) price with
      | none => .error ("KeyError: no level at the node's price", b)
      | some lvl =>
        if side = m.side then
          if m.price = price then
            match lvl.findNode? m.order_id with
            | none => .error ("KeyError: dangling order handle", b)
            | some node =>
              if m.size > node.size then
                match b._cancel m with
                | .error e => .error e
                | .ok b1 => b1._add m
              else
                match lvl.remove m.order_id (node.size - m.size) with
                | .error e => .error (e, b)
                | .ok lvl' =>
                  .ok (b.setSideTree side
                        (sdInsert (b.sideTree side) price (lvl'.setTsRecv m.order_id m.ts_recv)))
          else
            match b._cancel m with
            | .error e => .error e
            | .ok b1 => b1._add m
        else .error ("AssertionError: orders cannot change side", b)
    else .error ("ValueError: not a valid side", b)

/-- `OrderBook.apply`: refuse `F_TOB`, dispatch on the action, stamp
`ts_last_update` on success. -/
def OrderBook.apply (b : OrderBook) (m : Message) : Except (String × OrderBook) OrderBook :=
  if m.flags.land F_TOB ≠ 0 then
    .error ("ValueError: TOB flag indicates that the TopOfBookOrderBook class should be used", b)
  else
    let r : Except (String × OrderBook) OrderBook :=
      if m.action = 'T' ∨ m.action = 'F' ∨ m.action = 'N' then .ok b
      else if m.action = 'R' then .ok b._clear
      else if m.action = 'A' then b._add m
      else if m.action = 'C' then b._cancel m
      else if m.action = 'M' then b._modify m
      else .error ("ValueError: unknown action", b)
    match r with
    | .error e => .error e
    | .ok b' => .ok { b' with ts_last_update := m.ts_recv }

/-- `OrderBook.bbo`: the queue at the maximum bid key / minimum offer key,
reported as `(price, aggregate depth)`, or the empty default. -/
def OrderBook.bbo (b : OrderBook) : BestBidOffer × BestBidOffer :=
  let best_bid := match b.bids.getLast? with
    | some e => ⟨e.2.get_num_shares, some e.2.price⟩
    | none => BestBidOffer.empty
  let best_offer := match b.offers.head? with
    | some e => ⟨e.2.get_num_shares, some e.2.price⟩
    | none => BestBidOffer.empty
  (best_bid, best_offer)

/-- `order_book.TopOfBookOrderBook`: two optional slots. -/
structure TopOfBookOrderBook where
  instrument : Nat
  publisher : Nat
  ts_last_update : Nat
  bid : Option OrderNode
  offer : Option OrderNode
deriving DecidableEq

/-- `TopOfBookOrderBook.__init__`. -/
def TopOfBookOrderBook.fresh (instrument publisher : Nat) : TopOfBookOrderBook :=
  ⟨instrument, publisher, 0, none, none⟩

/-- `TopOfBookOrderBook._add`: a blank side (`size == 0 ∧ price == UNDEF_PRICE`)
clears the slot, anything else replaces it with a fresh node; a message without
`F_LAST` additionally wipes the other side pending its partner record. -/
def TopOfBookOrderBook._add (t : TopOfBookOrderBook) (m : Message) : TopOfBookOrderBook :=
  let node : Option OrderNode :=
    if m.size = 0 ∧ m.price = UNDEF_PRICE then none else some (OrderNode.ofMessage m)
  let t1 := if m.side = 'B' then { t with bid := node } else { t with offer := node }
  let t2 :=
    if m.flags.land F_LAST = 0 then
      if m.side = 'B' then { t1 with offer := none } else { t1 with bid := none }
    else t1
  { t2 with ts_last_update := m.ts_recv }

/-- `TopOfBookOrderBook.apply`: `T`/`N` are no-ops, `R` clears both slots, `A`
requires `F_TOB`; everything else is refused. -/
def TopOfBookOrderBook.apply (t : TopOfBookOrderBook) (m : Message) :
    Except (String × TopOfBookOrderBook) TopOfBookOrderBook :=
  let r : Except (String × TopOfBookOrderBook) TopOfBookOrderBook :=
    if m.action = 'T' ∨ m.action = 'N' then .ok t
    else if m.action = 'R' then .ok { t with bid := none, offer := none }
    else if m.action = 'A' then
      if m.flags.land F_TOB = 0 then
        .error ("ValueError: needs to have a TOB flag", t)
      else .ok (t._add m)
    else .error ("ValueError: unknown action", t)
  match r with
  | .error e => .error e
  | .ok t' => .ok { t' with ts_last_update := m.ts_recv }

/-- `TopOfBookOrderBook.bbo`. -/
def TopOfBookOrderBook.bbo (t : TopOfBookOrderBook) : BestBidOffer × BestBidOffer :=
  let best_bid := match t.bid with
    | some n => ⟨(n.size : Int), some n.price⟩
    | none => BestBidOffer.empty
  let best_offer := match t.offer with
    | some n => ⟨(n.size : Int), some n.price⟩
    | none => BestBidOffer.empty
  (best_bid, best_offer)

/-- The two book variants the `Market` stores. -/
inductive AnyBook where
  | full : OrderBook → AnyBook
  | tob : TopOfBookOrderBook → AnyBook
deriving DecidableEq

/-- Dynamic dispatch of `bbo()`. -/
def AnyBook.bbo : AnyBook → BestBidOffer × BestBidOffer
  | .full b => b.bbo
  | .tob t => t.bbo

/-- `market.Market`, restricted to the state the claims about it use: the
two-level `exchanges` map `publisher_id → (instrument_id → book)` as an
association list in Python-dict (insertion) iteration order. -/
structure Market where
  exchanges : List (Nat × List (Nat × AnyBook))
deriving DecidableEq

/-- `Market.get_order_book`: the tracked book, or a fresh empty full-depth
book (not inserted) when the pair is unknown. -/
def Market.get_order_book (mkt : Market) (instrument_id publisher_id : Nat) : AnyBook :=
  match alookup mkt.exchanges publisher_id with
  | some ex =>
    match alookup ex instrument_id with
    | some bk => bk
    | none => .full (OrderBook.fresh instrument_id publisher_id)
  | none => .full (OrderBook.fresh instrument_id publisher_id)

/-- Python truthiness of an optional publisher id (`if publisher_id:`):
`None` and `0` are falsy. -/
def natTruthy : Option Nat → Bool
  | none => false
  | some n => n != 0

/-- Python truthiness of a `BestBidOffer.price` (`if best_bid.price:`):
`None` and `0.0` are falsy. -/
def priceTruthy : Option ℚ → Bool
  | none => false
  | some p => p != 0

/-- One step of `Market.bbo`'s bid fold: replace the incumbent by a strictly
higher-priced truthy challenger, adopt a truthy challenger when the incumbent
is falsy, keep the incumbent otherwise. -/
def pickBetterBid (best exch : BestBidOffer) : BestBidOffer :=
  if priceTruthy best.price && priceTruthy exch.price then
    if best.price.getD 0 < exch.price.getD 0 then exch else best
  else if priceTruthy exch.price then exch
  else best

/-- One step of `Market.bbo`'s offer fold: symmetric, lower price wins. -/
def pickBetterOffer (best exch : BestBidOffer) : BestBidOffer :=
  if priceTruthy best.price && priceTruthy exch.price then
    if best.price.getD 0 > exch.price.getD 0 then exch else best
  else if priceTruthy exch.price then exch
  else best

/-- `Market.bbo`: with a truthy `publisher_id` delegate to that book's `bbo`;
otherwise fold the per-exchange bbos over all known publishers. -/
def Market.bbo (mkt : Market) (instrument_id : Nat) (publisher_id : Option Nat) :
    BestBidOffer × BestBidOffer :=
  if natTruthy publisher_id then
    (mkt.get_order_book instrument_id (publisher_id.getD 0)).bbo
  else
    mkt.exchanges.foldl
      (fun acc e =>
        let ebbo := (mkt.get_order_book instrument_id e.1).bbo
        (pickBetterBid acc.1 ebbo.1, pickBetterOffer acc.2 ebbo.2))
      (BestBidOffer.empty, BestBidOffer.empty)

/-! ## Equality decision for results, used when settling concrete scenarios -/

instance {e a : Type} [DecidableEq e] [DecidableEq a] : DecidableEq (Except e a) := fun x y =>
  match x, y with
  | .ok u, .ok v => decidable_of_iff (u = v) (by simp)
  | .error u, .error v => decidable_of_iff (u = v) (by simp)
  | .ok _, .error _ => isFalse (by simp)
  | .error _, .ok _ => isFalse (by simp)

/-! ## The slot a TopOfBook message targets -/

/-- The slot `TopOfBookOrderBook._add` writes for a side: `bid` for `'B'`,
`offer` otherwise. -/
def TopOfBookOrderBook.sideSlot (t : TopOfBookOrderBook) (side : Char) : Option OrderNode :=
  if side = 'B' then t.bid else t.offer

/-- The opposite of a (valid) side. -/
def otherSide (side : Char) : Char := if side = 'B' then 'A' else 'B'

/-! ## C8 -/

/-- **C8.** Full-depth `apply` errors whenever `F_TOB` is set, regardless of
action; `TopOfBookOrderBook.apply` errors for `C`, `M`, `F` and for any action
outside the alphabet, and for `A` without `F_TOB`; `T` and `N` are accepted
without error by both variants (for the full book, absent the `F_TOB` flag
its first check already rejects). -/
theorem claim_C8_action_flag_errors :
    (∀ (b : OrderBook) (m : Message), m.flags.land F_TOB ≠ 0 →
      ∃ e, b.apply m = .error e) ∧
    (∀ (t : TopOfBookOrderBook) (m : Message),
      (m.action = 'C' ∨ m.action = 'M' ∨ m.action = 'F' ∨
        m.action ∉ (['T', 'F', 'N', 'R', 'A', 'C', 'M'] : List Char)) →
      ∃ e, t.apply m = .error e) ∧
    (∀ (t : TopOfBookOrderBook) (m : Message),
      m.action = 'A' → m.flags.land F_TOB = 0 → ∃ e, t.apply m = .error e) ∧
    (∀ (b : OrderBook) (m : Message),
      (m.action = 'T' ∨ m.action = 'N') → m.flags.land F_TOB = 0 →
      ∃ b', b.apply m = .ok b') ∧
    (∀ (t : TopOfBookOrderBook) (m : Message),
      (m.action = 'T' ∨ m.action = 'N') → ∃ t', t.apply m = .ok t') := by
  refine ⟨?_, ?_, ?_, ?_, ?_⟩
  · intro b m h
    exact ⟨("ValueError: TOB flag indicates that the TopOfBookOrderBook class should be used", b),
      by simp [OrderBook.apply, h]⟩
  · intro t m h
    rcases h with h | h | h | h
    · exact ⟨("ValueError: unknown action", t), by simp [TopOfBookOrderBook.apply, h]⟩
    · exact ⟨("ValueError: unknown action", t), by simp [TopOfBookOrderBook.apply, h]⟩
    · exact ⟨("ValueError: unknown action", t), by simp [TopOfBookOrderBook.apply, h]⟩
    · simp only [List.mem_cons, List.not_mem_nil, or_false] at h
      push_neg at h
      obtain ⟨h1, h2, h3, h4, h5, h6, h7⟩ := h
      exact ⟨("ValueError: unknown action", t),
        by simp [TopOfBookOrderBook.apply, h1, h2, h3, h4, h5]⟩
  · intro t m h1 h2
    exact ⟨("ValueError: needs to have a TOB flag", t),
      by simp [TopOfBookOrderBook.apply, h1, h2]⟩
  · intro b m h hf
    rcases h with h | h <;>
      exact ⟨{ b with ts_last_update := m.ts_recv }, by simp [OrderBook.apply, h, hf]⟩
  · intro t m h
    rcases h with h | h <;>
      exact ⟨{ t with ts_last_update := m.ts_recv }, by simp [TopOfBookOrderBook.apply, h]⟩

def c8msg (a : Char) (flags : Nat) : Message := ⟨a, 1, 5, 2, 3, 0, 'B', 9, flags, 100⟩

/-- C8 at concrete inputs. -/
theorem claim_C8_action_flag_errors_witness :
    (∃ e, (OrderBook.fresh 3 2).apply (c8msg 'T' 64) = .error e) ∧
    (∃ e, (TopOfBookOrderBook.fresh 3 2).apply (c8msg 'C' 128) = .error e) ∧
    (∃ e, (TopOfBookOrderBook.fresh 3 2).apply (c8msg 'A' 128) = .error e) ∧
    (∃ b', (OrderBook.fresh 3 2).apply (c8msg 'N' 128) = .ok b') ∧
    (∃ t', (TopOfBookOrderBook.fresh 3 2).apply (c8msg 'T' 0) = .ok t') :=
  ⟨claim_C8_action_flag_errors.1 _ _ (by decide),
   claim_C8_action_flag_errors.2.1 _ _ (by decide),
   claim_C8_action_flag_errors.2.2.1 _ _ (by decide) (by decide),
   claim_C8_action_flag_errors.2.2.2.1 _ _ (by decide) (by decide),
   claim_C8_action_flag_errors.2.2.2.2 _ _ (by decide)⟩

/-! ## C7 -/

/-- **C7.** For an add message with `F_TOB` set (and a side that names a slot),
`TopOfBookOrderBook.apply` succeeds; a blank (`size == 0 ∧ price == UNDEF_PRICE`)
empties the slot for `m.side`, anything else installs a fresh node carrying the
message's fields; and when `F_LAST` is absent the opposite slot is wiped. -/
theorem claim_C7_tob_add (t : TopOfBookOrderBook) (m : Message)
    (hA : m.action = 'A') (htob : m.flags.land F_TOB ≠ 0)
    (hside : m.side = 'A' ∨ m.side = 'B') :
    ∃ t', t.apply m = .ok t' ∧
      t'.sideSlot m.side =
        (if m.size = 0 ∧ m.price = UNDEF_PRICE then none else some (OrderNode.ofMessage m)) ∧
      (m.flags.land F_LAST = 0 → t'.sideSlot (otherSide m.side) = none) := by
  refine ⟨{ t._add m with ts_last_update := m.ts_recv }, ?_, ?_, ?_⟩
  · simp [TopOfBookOrderBook.apply, hA, htob]
  · rcases hside with h | h <;>
      by_cases hb : m.size = 0 ∧ m.price = UNDEF_PRICE <;>
      by_cases hl : m.flags.land F_LAST = 0 <;>
      simp [TopOfBookOrderBook._add, TopOfBookOrderBook.sideSlot, h, hb, hl]
  · intro hl
    rcases hside with h | h <;>
      simp [TopOfBookOrderBook._add, TopOfBookOrderBook.sideSlot, otherSide, h, hl]

def c7msg : Message := ⟨'A', 11, 200, 2, 3, 0, 'B', 9, 64, 50⟩

/-- C7 at a concrete input: a non-final bid update installs the bid slot and
wipes the offer slot. -/
theorem claim_C7_tob_add_witness :
    ∃ t', (TopOfBookOrderBook.fresh 3 2).apply c7msg = .ok t' ∧
      t'.sideSlot c7msg.side =
        (if c7msg.size = 0 ∧ c7msg.price = UNDEF_PRICE then none
         else some (OrderNode.ofMessage c7msg)) ∧
      (c7msg.flags.land F_LAST = 0 → t'.sideSlot (otherSide c7msg.side) = none) :=
  claim_C7_tob_add _ _ (by decide) (by decide) (by decide)

/-! ## C1 -/

/-- The book holding one resting bid, id 1, size 5, at price 100. -/
def c1Book : OrderBook :=
  ⟨1, 2, 10, [(1, ('B', 100))], [(100, ⟨100, 5, 1, [⟨1, 100, 5, 2, 1, 'B', 10⟩]⟩)], []⟩

/-- A modify that only increases the size of order 1 (price unchanged). -/
def c1MsgUp : Message := ⟨'M', 1, 8, 2, 1, 0, 'B', 30, 0, 100⟩

/-- A modify that moves order 1 to price 101 with a smaller size. -/
def c1MsgMove : Message := ⟨'M', 1, 3, 2, 1, 0, 'B', 30, 0, 101⟩

/-- **C1.** What the code actually does on the claim's inputs: a pure size
increase raises `ValueError` from `OrderLinkedList.remove` (because `_modify`
forwards the modify message to `_cancel`, which removes `msg.size = 8 > 5`)
instead of cancel-and-replacing, and a price change with `msg.size = 3 <
node.size = 5` partially cancels (order 1 shrinks to size 2 and its `ts_recv`
is bumped) and then fails `_add`'s duplicate-id assertion, instead of moving
the full order to the tail of the 101 queue. -/
theorem claim_C1_modify_diverges :
    c1Book.apply c1MsgUp = .error ("ValueError: amount is greater than existing size", c1Book) ∧
    c1Book.apply c1MsgMove =
      .error ("AssertionError: order_id already in orders",
        ⟨1, 2, 10, [(1, ('B', 100))], [(100, ⟨100, 2, 1, [⟨1, 100, 2, 2, 1, 'B', 30⟩]⟩)], []⟩) := by
  exact ⟨by decide, by decide⟩

/-! ## C9 -/

/-- `_add` validates before mutating: its errors report the input state. -/
theorem OrderBook._add_error {b : OrderBook} {m : Message} {e : String} {b' : OrderBook}
    (h : b._add m = .error (e, b')) : b' = b := by
  unfold OrderBook._add at h
  split at h
  · simp only [Except.error.injEq, Prod.mk.injEq] at h; exact h.2.symm
  · split at h
    · simp only [Except.error.injEq, Prod.mk.injEq] at h; exact h.2.symm
    · split at h
      · simp at h
      · simp only [Except.error.injEq, Prod.mk.injEq] at h; exact h.2.symm

/-- `_cancel` validates before mutating: its errors report the input state. -/
theorem OrderBook._cancel_error {b : OrderBook} {m : Message} {e : String} {b' : OrderBook}
    (h : b._cancel m = .error (e, b')) : b' = b := by
  unfold OrderBook._cancel at h
  split at h
  · simp only [Except.error.injEq, Prod.mk.injEq] at h; exact h.2.symm
  · split at h
    · dsimp only at h
      split at h
      · simp only [Except.error.injEq, Prod.mk.injEq] at h; exact h.2.symm
      · split at h
        · simp only [Except.error.injEq, Prod.mk.injEq] at h; exact h.2.symm
        · split at h
          · simp only [Except.error.injEq, Prod.mk.injEq] at h; exact h.2.symm
          · split at h
            · simp at h
            · simp at h
    · simp only [Except.error.injEq, Prod.mk.injEq] at h; exact h.2.symm

/-- `_modify`'s errors report the input state, except when its inner
cancel-then-add sequence fails in `_add`: then the inner cancel's result is
the state left behind. -/
theorem OrderBook._modify_error {b : OrderBook} {m : Message} {e : String} {b' : OrderBook}
    (h : b._modify m = .error (e, b')) : b' = b ∨ b._cancel m = .ok b' := by
  unfold OrderBook._modify at h
  split at h
  · simp only [Except.error.injEq, Prod.mk.injEq] at h; exact Or.inl h.2.symm
  · split at h
    · split at h
      · simp only [Except.error.injEq, Prod.mk.injEq] at h; exact Or.inl h.2.symm
      · split at h
        · split at h
          · split at h
            · simp only [Except.error.injEq, Prod.mk.injEq] at h; exact Or.inl h.2.symm
            · split at h
              · rename_i hcan
                split at h
                · rename_i e0 heq
                  simp only [Except.error.injEq] at h
                  subst h
                  exact Or.inl (OrderBook._cancel_error heq)
                · rename_i b1 heq
                  refine Or.inr ?_
                  rw [OrderBook._add_error h]
                  exact heq
              · split at h
                · simp only [Except.error.injEq, Prod.mk.injEq] at h; exact Or.inl h.2.symm
                · simp at h
          · split at h
            · rename_i e0 heq
              simp only [Except.error.injEq] at h
              subst h
              exact Or.inl (OrderBook._cancel_error heq)
            · rename_i b1 heq
              refine Or.inr ?_
              rw [OrderBook._add_error h]
              exact heq
        · simp only [Except.error.injEq, Prod.mk.injEq] at h; exact Or.inl h.2.symm
    · simp only [Except.error.injEq, Prod.mk.injEq] at h; exact Or.inl h.2.symm

/-- **C9 (amended).** When `apply` signals an error, the state it leaves
behind is the unchanged input book — except when `_modify` took its
cancel-then-add path and the inner `_add` failed, in which case the state is
exactly the inner cancel's result. -/
theorem claim_C9_error_frame (b : OrderBook) (m : Message) (e : String) (b' : OrderBook)
    (h : b.apply m = .error (e, b')) :
    b' = b ∨ (m.action = 'M' ∧ b._cancel m = .ok b') := by
  unfold OrderBook.apply at h
  split at h
  · simp only [Except.error.injEq, Prod.mk.injEq] at h; exact Or.inl h.2.symm
  · dsimp only at h
    split at h
    · rename_i e0 heq
      simp only [Except.error.injEq] at h
      subst h
      split at heq
      · simp at heq
      · split at heq
        · simp at heq
        · split at heq
          · exact Or.inl (OrderBook._add_error heq)
          · split at heq
            · exact Or.inl (OrderBook._cancel_error heq)
            · split at heq
              · rename_i hM
                rcases OrderBook._modify_error heq with hb | hc
                · exact Or.inl hb
                · exact Or.inr ⟨hM, hc⟩
              · simp only [Except.error.injEq, Prod.mk.injEq] at heq
                exact Or.inl heq.2.symm
    · simp at h

/-- C9's amended statement at a concrete input: an unknown action errors and
reports the untouched book. -/
theorem claim_C9_error_frame_witness :
    c1Book = c1Book ∨
      ((⟨'X', 1, 0, 2, 1, 0, 'N', 30, 0, 100⟩ : Message).action = 'M' ∧
        c1Book._cancel ⟨'X', 1, 0, 2, 1, 0, 'N', 30, 0, 100⟩ = .ok c1Book) :=
  claim_C9_error_frame c1Book ⟨'X', 1, 0, 2, 1, 0, 'N', 30, 0, 100⟩
    "ValueError: unknown action" c1Book (by decide)

/-- **C9 (counterexample to the claim as stated).** A modify that moves order
1 from price 100 to 101 with a smaller size (3 < 5) signals an error, yet the
book it leaves behind is mutated: order 1 has shrunk to size 2 with a bumped
`ts_recv`, and the level depth at 100 fell from 5 to 2. -/
theorem claim_C9_counterexample :
    c1Book.apply c1MsgMove =
      .error ("AssertionError: order_id already in orders",
        ⟨1, 2, 10, [(1, ('B', 100))], [(100, ⟨100, 2, 1, [⟨1, 100, 2, 2, 1, 'B', 30⟩]⟩)], []⟩) ∧
    (sdGet? c1Book.bids 100).map OrderLinkedList.get_num_shares = some 5 ∧
    (sdGet?
        (⟨1, 2, 10, [(1, ('B', 100))], [(100, ⟨100, 2, 1, [⟨1, 100, 2, 2, 1, 'B', 30⟩]⟩)],
          []⟩ : OrderBook).bids 100).map OrderLinkedList.get_num_shares = some 2 := by
  exact ⟨by decide, by decide, by decide⟩

/-! ## List decomposition helpers -/

/-- A successful `find?` splits its list at the first match. -/
theorem find?_split {α : Type} {p : α → Bool} :
    ∀ {l : List α} {a : α}, l.find? p = some a →
      ∃ l1 l2, l = l1 ++ a :: l2 ∧ (∀ x ∈ l1, p x = false) ∧ p a = true := by
  intro l
  induction l with
  | nil => intro a h; simp [List.find?] at h
  | cons x xs ih =>
    intro a h
    rw [List.find?_cons] at h
    cases hx : p x with
    | true =>
      rw [hx] at h
      simp only [Option.some.injEq] at h
      subst h
      exact ⟨[], xs, rfl, by simp, hx⟩
    | false =>
      rw [hx] at h
      obtain ⟨l1, l2, rfl, h1, h2⟩ := ih h
      refine ⟨x :: l1, l2, rfl, ?_, h2⟩
      intro y hy
      rcases List.mem_cons.mp hy with rfl | hy
      · exact hx
      · exact h1 y hy

/-- `updateNodeSize` rewrites exactly the first node carrying the id. -/
theorem updateNodeSize_append (l1 : List OrderNode) (n : OrderNode) (l2 : List OrderNode)
    (oid ns : Nat) (h1 : ∀ x ∈ l1, x.order_id ≠ oid) (hn : n.order_id = oid) :
    updateNodeSize (l1 ++ n :: l2) oid ns = l1 ++ { n with size := ns } :: l2 := by
  induction l1 with
  | nil => simp [updateNodeSize, hn]
  | cons x xs ih =>
    have hx : x.order_id ≠ oid := h1 x (List.mem_cons_self x xs)
    simp only [List.cons_append, updateNodeSize, hx, if_false, List.append_eq]
    rw [ih (fun y hy => h1 y (List.mem_cons_of_mem x hy))]

/-- `updateNodeTs` rewrites exactly the first node carrying the id. -/
theorem updateNodeTs_append (l1 : List OrderNode) (n : OrderNode) (l2 : List OrderNode)
    (oid ts : Nat) (h1 : ∀ x ∈ l1, x.order_id ≠ oid) (hn : n.order_id = oid) :
    updateNodeTs (l1 ++ n :: l2) oid ts = l1 ++ { n with ts_recv := ts } :: l2 := by
  induction l1 with
  | nil => simp [updateNodeTs, hn]
  | cons x xs ih =>
    have hx : x.order_id ≠ oid := h1 x (List.mem_cons_self x xs)
    simp only [List.cons_append, updateNodeTs, hx, if_false, List.append_eq]
    rw [ih (fun y hy => h1 y (List.mem_cons_of_mem x hy))]

/-- `eraseP` by id removes exactly the first node carrying the id. -/
theorem eraseP_id_append (l1 : List OrderNode) (n : OrderNode) (l2 : List OrderNode)
    (oid : Nat) (h1 : ∀ x ∈ l1, x.order_id ≠ oid) (hn : n.order_id = oid) :
    (l1 ++ n :: l2).eraseP (fun x => decide (x.order_id = oid)) = l1 ++ l2 := by
  rw [List.eraseP_append_right _ (by simpa using h1)]
  simp [List.eraseP_cons_of_pos, hn]

/-! ## SortedDict lemmas -/

theorem sdGet?_nil (k : ℚ) : sdGet? [] k = none := rfl

theorem sdGet?_cons (e : ℚ × OrderLinkedList) (t : List (ℚ × OrderLinkedList)) (k : ℚ) :
    sdGet? (e :: t) k = if e.1 = k then some e.2 else sdGet? t k := by
  by_cases h : e.1 = k <;> simp [sdGet?, List.find?_cons, h]

theorem sdGet?_insert_self (t : List (ℚ × OrderLinkedList)) (k : ℚ) (v : OrderLinkedList) :
    sdGet? (sdInsert t k v) k = some v := by
  induction t with
  | nil => simp [sdInsert, sdGet?_cons, sdGet?_nil]
  | cons e t ih =>
    by_cases h1 : k < e.1
    · simp [sdInsert, h1, sdGet?_cons]
    · by_cases h2 : k = e.1
      · simp [sdInsert, h1, h2, sdGet?_cons]
      · have he : ¬ e.1 = k := fun h => h2 h.symm
        simp only [sdInsert, if_neg h1, if_neg h2, sdGet?_cons, he, if_false]
        exact ih

theorem sdGet?_insert_ne (t : List (ℚ × OrderLinkedList)) (k k' : ℚ) (v : OrderLinkedList)
    (hne : k' ≠ k) : sdGet? (sdInsert t k v) k' = sdGet? t k' := by
  have hk : ¬ k = k' := fun h => hne h.symm
  induction t with
  | nil => simp [sdInsert, sdGet?_cons, sdGet?_nil, hk]
  | cons e t ih =>
    by_cases h1 : k < e.1
    · simp [sdInsert, h1, sdGet?_cons, hk]
    · by_cases h2 : k = e.1
      · have he : ¬ e.1 = k' := fun h => hk (h2.trans h)
        simp [sdInsert, if_neg h1, h2, sdGet?_cons, hk, he]
      · simp only [sdInsert, if_neg h1, if_neg h2]
        by_cases he : e.1 = k'
        · simp [sdGet?_cons, he]
        · simp only [sdGet?_cons, he, if_false]
          exact ih

theorem mem_sdInsert {t : List (ℚ × OrderLinkedList)} {k : ℚ} {v : OrderLinkedList}
    {e : ℚ × OrderLinkedList} (h : e ∈ sdInsert t k v) : e = (k, v) ∨ e ∈ t := by
  induction t with
  | nil => simpa [sdInsert] using h
  | cons x t ih =>
    by_cases h1 : k < x.1
    · simp only [sdInsert, if_pos h1, List.mem_cons] at h
      rcases h with h | h | h
      · exact Or.inl h
      · exact Or.inr (by simp [h])
      · exact Or.inr (List.mem_cons_of_mem _ h)
    · by_cases h2 : k = x.1
      · simp only [sdInsert, if_neg h1, if_pos h2, List.mem_cons] at h
        rcases h with h | h
        · exact Or.inl h
        · exact Or.inr (List.mem_cons_of_mem _ h)
      · simp only [sdInsert, if_neg h1, if_neg h2, List.mem_cons] at h
        rcases h with h | h
        · exact Or.inr (by simp [h])
        · rcases ih h with h' | h'
          · exact Or.inl h'
          · exact Or.inr (List.mem_cons_of_mem _ h')

theorem pairwise_sdInsert {t : List (ℚ × OrderLinkedList)} (k : ℚ) (v : OrderLinkedList)
    (hp : t.Pairwise (fun a b => a.1 < b.1)) :
    (sdInsert t k v).Pairwise (fun a b => a.1 < b.1) := by
  induction t with
  | nil => simp [sdInsert]
  | cons x t ih =>
    rw [List.pairwise_cons] at hp
    by_cases h1 : k < x.1
    · simp only [sdInsert, if_pos h1]
      rw [List.pairwise_cons]
      refine ⟨?_, List.pairwise_cons.mpr hp⟩
      intro a ha
      rcases List.mem_cons.mp ha with rfl | ha
      · exact h1
      · exact h1.trans (hp.1 a ha)
    · by_cases h2 : k = x.1
      · simp only [sdInsert, if_neg h1, if_pos h2]
        rw [List.pairwise_cons]
        exact ⟨fun a ha => h2 ▸ hp.1 a ha, hp.2⟩
      · simp only [sdInsert, if_neg h1, if_neg h2]
        rw [List.pairwise_cons]
        refine ⟨?_, ih hp.2⟩
        intro a ha
        rcases mem_sdInsert ha with rfl | ha
        · exact lt_of_le_of_ne (not_lt.mp h1) (fun h => h2 h.symm)
        · exact hp.1 a ha

theorem sdGet?_erase_ne (t : List (ℚ × OrderLinkedList)) (k k' : ℚ) (hne : k' ≠ k) :
    sdGet? (sdErase t k) k' = sdGet? t k' := by
  induction t with
  | nil => simp [sdErase, sdGet?_nil]
  | cons e t ih =>
    by_cases he : e.1 = k
    · rw [sdErase, List.eraseP_cons_of_pos (by simp [he])]
      have hek : ¬ e.1 = k' := fun h => hne ((h.symm.trans he))
      simp [sdGet?_cons, hek]
    · rw [sdErase, List.eraseP_cons_of_neg (by simp [he])]
      by_cases he' : e.1 = k'
      · simp [sdGet?_cons, he']
      · simp only [sdGet?_cons, he', if_false]
        exact ih

theorem sdGet?_erase_self (t : List (ℚ × OrderLinkedList)) (k : ℚ)
    (hp : t.Pairwise (fun a b => a.1 < b.1)) :
    sdGet? (sdErase t k) k = none := by
  induction t with
  | nil => simp [sdErase, sdGet?_nil]
  | cons e t ih =>
    rw [List.pairwise_cons] at hp
    by_cases he : e.1 = k
    · rw [sdErase, List.eraseP_cons_of_pos (by simp [he])]
      rw [sdGet?, List.find?_eq_none.mpr]
      · rfl
      · intro x hx
        have hlt : e.1 < x.1 := hp.1 x hx
        simp only [decide_eq_true_eq]
        intro hk
        rw [he, hk] at hlt
        exact lt_irrefl _ hlt
    · rw [sdErase, List.eraseP_cons_of_neg (by simp [he])]
      simp only [sdGet?_cons, he, if_false]
      exact ih hp.2

theorem sdGet?_mem {t : List (ℚ × OrderLinkedList)} {k : ℚ} {v : OrderLinkedList}
    (h : sdGet? t k = some v) : (k, v) ∈ t := by
  rw [sdGet?] at h
  rcases Option.map_eq_some'.mp h with ⟨e, he, hv⟩
  have h1 := List.find?_some he
  have h2 := List.mem_of_find?_eq_some he
  simp only [decide_eq_true_eq] at h1
  have : e = (k, v) := by
    cases e
    simp only at h1 hv
    simp [h1, hv]
  exact this ▸ h2

theorem getLast?_mem' {α : Type} : ∀ {l : List α} {a : α}, l.getLast? = some a → a ∈ l := by
  intro l
  induction l with
  | nil => simp
  | cons x xs ih =>
    intro a h
    cases xs with
    | nil => simp at h; simp [h]
    | cons y ys =>
      rw [List.getLast?_cons_cons] at h
      exact List.mem_cons_of_mem _ (ih h)

theorem getLast?_max (t : List (ℚ × OrderLinkedList))
    (hp : t.Pairwise (fun a b => a.1 < b.1)) {e : ℚ × OrderLinkedList}
    (h : t.getLast? = some e) : ∀ x ∈ t, x.1 ≤ e.1 := by
  induction t with
  | nil => simp at h
  | cons y ys ih =>
    rw [List.pairwise_cons] at hp
    intro x hx
    cases ys with
    | nil =>
      simp only [List.getLast?, Option.some.injEq] at h
      subst h
      simp only [List.mem_singleton] at hx
      simp [hx]
    | cons z zs =>
      rw [List.getLast?_cons_cons] at h
      rcases List.mem_cons.mp hx with rfl | hx
      · exact le_of_lt (hp.1 e (getLast?_mem' h))
      · exact ih hp.2 h x hx

theorem head?_min (t : List (ℚ × OrderLinkedList))
    (hp : t.Pairwise (fun a b => a.1 < b.1)) {e : ℚ × OrderLinkedList}
    (h : t.head? = some e) : ∀ x ∈ t, e.1 ≤ x.1 := by
  cases t with
  | nil => simp at h
  | cons y ys =>
    simp only [List.head?_cons, Option.some.injEq] at h
    subst h
    rw [List.pairwise_cons] at hp
    intro x hx
    rcases List.mem_cons.mp hx with rfl | hx
    · exact le_refl _
    · exact le_of_lt (hp.1 x hx)

/-! ## C6 -/

theorem sideTree_setSideTree_self (b : OrderBook) (s : Char) (t : List (ℚ × OrderLinkedList)) :
    (b.setSideTree s t).sideTree s = t := by
  unfold OrderBook.setSideTree OrderBook.sideTree
  by_cases h : s = 'A' <;> simp [h]

theorem orders_setSideTree (b : OrderBook) (s : Char) (t : List (ℚ × OrderLinkedList)) :
    (b.setSideTree s t).orders = b.orders := by
  unfold OrderBook.setSideTree
  by_cases h : s = 'A' <;> simp [h]

/-- **C6 (amended: `0 < m.size`).** A same-side, same-price modify with
`0 < m.size < node.size` shrinks the order in place: `apply` succeeds, the id
index is untouched, and the level keeps the node between the same neighbours
with its size set to `m.size`, its `ts_recv` to `m.ts_recv`, and the level
depth lowered by the difference. -/
theorem claim_C6_modify_down_inplace (b : OrderBook) (m : Message)
    (lvl : OrderLinkedList) (node : OrderNode)
    (hM : m.action = 'M') (hflags : m.flags.land F_TOB = 0) (hside : sideOk m.side)
    (hidx : alookup b.orders m.order_id = some (m.side, m.price))
    (hlvl : sdGet? (b.sideTree m.side) m.price = some lvl)
    (hfind : lvl.findNode? m.order_id = some node)
    (hpos : 0 < m.size) (hlt : m.size < node.size) :
    ∃ b', b.apply m = .ok b' ∧
      b'.orders = b.orders ∧
      (∃ l1 l2, lvl.nodes = l1 ++ node :: l2 ∧
        sdGet? (b'.sideTree m.side) m.price =
          some { lvl with depth := lvl.depth - ((node.size : Int) - (m.size : Int)),
                          nodes := l1 ++ { node with size := m.size, ts_recv := m.ts_recv } :: l2 }) := by
  obtain ⟨l1, l2, hsplit, hl1, hpa⟩ := find?_split hfind
  simp only [decide_eq_true_eq] at hpa
  have hl1' : ∀ x ∈ l1, x.order_id ≠ m.order_id := by
    intro x hx
    have := hl1 x hx
    simpa using this
  have hcast : lvl.depth - (((node.size - m.size : ℕ) : ℤ)) =
      lvl.depth - ((node.size : Int) - (m.size : Int)) := by omega
  have hrem : lvl.remove m.order_id (node.size - m.size) =
      .ok { lvl with depth := lvl.depth - ((node.size : Int) - (m.size : Int)),
                     nodes := l1 ++ { node with size := m.size } :: l2 } := by
    unfold OrderLinkedList.remove
    rw [hfind]
    dsimp only
    rw [if_neg (by omega)]
    have hs : node.size - (node.size - m.size) = m.size := by omega
    rw [hs, if_neg (by omega)]
    rw [hsplit, updateNodeSize_append l1 node l2 m.order_id _ hl1' hpa, hcast]
  have hmod : b._modify m = .ok (b.setSideTree m.side
      (sdInsert (b.sideTree m.side) m.price
        { lvl with depth := lvl.depth - ((node.size : Int) - (m.size : Int)),
                   nodes := l1 ++ { node with size := m.size, ts_recv := m.ts_recv } :: l2 })) := by
    unfold OrderBook._modify
    rw [hidx]
    dsimp only
    rw [if_pos hside, hlvl]
    dsimp only
    rw [if_pos rfl, if_pos rfl, hfind]
    dsimp only
    rw [if_neg (by omega), hrem]
    dsimp only
    have hts : OrderLinkedList.setTsRecv
        { lvl with depth := lvl.depth - ((node.size : Int) - (m.size : Int)),
                   nodes := l1 ++ { node with size := m.size } :: l2 } m.order_id m.ts_recv =
        { lvl with depth := lvl.depth - ((node.size : Int) - (m.size : Int)),
                   nodes := l1 ++ { node with size := m.size, ts_recv := m.ts_recv } :: l2 } := by
      unfold OrderLinkedList.setTsRecv
      simp only
      rw [updateNodeTs_append l1 { node with size := m.size } l2 m.order_id m.ts_recv hl1' hpa]
    rw [hts]
  refine ⟨{ b.setSideTree m.side
      (sdInsert (b.sideTree m.side) m.price
        { lvl with depth := lvl.depth - ((node.size : Int) - (m.size : Int)),
                   nodes := l1 ++ { node with size := m.size, ts_recv := m.ts_recv } :: l2 }) with
      ts_last_update := m.ts_recv }, ?_, ?_, ?_⟩
  · unfold OrderBook.apply
    rw [if_neg (by simp [hflags]), hM]
    dsimp only
    rw [if_neg (by decide), if_neg (by decide), if_neg (by decide), if_neg (by decide),
      if_pos rfl, hmod]
  · simp [orders_setSideTree]
  · refine ⟨l1, l2, hsplit, ?_⟩
    have hst : (({ b.setSideTree m.side
        (sdInsert (b.sideTree m.side) m.price
          { lvl with depth := lvl.depth - ((node.size : Int) - (m.size : Int)),
                     nodes := l1 ++ { node with size := m.size, ts_recv := m.ts_recv } :: l2 }) with
        ts_last_update := m.ts_recv } : OrderBook)).sideTree m.side =
        sdInsert (b.sideTree m.side) m.price
          { lvl with depth := lvl.depth - ((node.size : Int) - (m.size : Int)),
                     nodes := l1 ++ { node with size := m.size, ts_recv := m.ts_recv } :: l2 } := by
      unfold OrderBook.setSideTree OrderBook.sideTree
      by_cases h : m.side = 'A' <;> simp [h]
    rw [hst, sdGet?_insert_self]

/-- A same-side same-price modify of order 1 down to size 3. -/
def c6Msg : Message := ⟨'M', 1, 3, 2, 1, 0, 'B', 77, 0, 100⟩

/-- C6's amended statement at a concrete input. -/
theorem claim_C6_modify_down_inplace_witness :
    ∃ b', c1Book.apply c6Msg = .ok b' ∧
      b'.orders = c1Book.orders ∧
      (∃ l1 l2, (⟨100, 5, 1, [⟨1, 100, 5, 2, 1, 'B', 10⟩]⟩ : OrderLinkedList).nodes
          = l1 ++ (⟨1, 100, 5, 2, 1, 'B', 10⟩ : OrderNode) :: l2 ∧
        sdGet? (b'.sideTree c6Msg.side) c6Msg.price =
          some { (⟨100, 5, 1, [⟨1, 100, 5, 2, 1, 'B', 10⟩]⟩ : OrderLinkedList) with
                   depth := (⟨100, 5, 1, [⟨1, 100, 5, 2, 1, 'B', 10⟩]⟩ : OrderLinkedList).depth -
                     (((⟨1, 100, 5, 2, 1, 'B', 10⟩ : OrderNode).size : Int) - (c6Msg.size : Int)),
                   nodes := l1 ++ { (⟨1, 100, 5, 2, 1, 'B', 10⟩ : OrderNode) with
                     size := c6Msg.size, ts_recv := c6Msg.ts_recv } :: l2 }) :=
  claim_C6_modify_down_inplace c1Book c6Msg ⟨100, 5, 1, [⟨1, 100, 5, 2, 1, 'B', 10⟩]⟩
    ⟨1, 100, 5, 2, 1, 'B', 10⟩ (by decide) (by decide) (by decide) (by decide) (by decide)
    (by decide) (by decide) (by decide)

/-- A same-side same-price modify of order 1 down to size 0. -/
def c6Msg0 : Message := ⟨'M', 1, 0, 2, 1, 0, 'B', 77, 0, 100⟩

/-- **C6 (counterexample to the claim as stated).** With `m.size = 0 <
node.size`, the code unlinks the node from its queue instead of shrinking it
in place: afterwards the level's chain is empty (so the node has no
predecessor/successor to preserve), the emptied level stays in the bid map and
the id index still holds the dangling order. -/
theorem claim_C6_counterexample :
    c1Book.apply c6Msg0 =
      .ok ⟨1, 2, 77, [(1, ('B', 100))], [(100, ⟨100, 0, 0, []⟩)], []⟩ ∧
    (sdGet? c1Book.bids 100).map OrderLinkedList.nodes = some [⟨1, 100, 5, 2, 1, 'B', 10⟩] ∧
    (sdGet? (⟨1, 2, 77, [(1, ('B', 100))], [(100, ⟨100, 0, 0, []⟩)], []⟩ : OrderBook).bids
        100).map OrderLinkedList.nodes = some [] :=
  ⟨by decide, by decide, by decide⟩

/-! ## C3 and C10: the consolidated fold -/

theorem priceTruthy_none : priceTruthy none = false := rfl

theorem priceTruthy_empty : priceTruthy BestBidOffer.empty.price = false := rfl

/-- The consolidated best bid as the spec words it: among the per-exchange
best bids whose price is truthy, the first one carrying the maximal price
(a later candidate replaces the incumbent only when strictly higher). -/
def specBestBid : List BestBidOffer → BestBidOffer
  | [] => BestBidOffer.empty
  | x :: xs =>
    let r := specBestBid xs
    if priceTruthy x.price then
      if priceTruthy r.price = true ∧ x.price.getD 0 < r.price.getD 0 then r else x
    else r

/-- The consolidated best offer as the spec words it: the first truthy-priced
candidate carrying the minimal price. -/
def specBestOffer : List BestBidOffer → BestBidOffer
  | [] => BestBidOffer.empty
  | x :: xs =>
    let r := specBestOffer xs
    if priceTruthy x.price then
      if priceTruthy r.price = true ∧ x.price.getD 0 > r.price.getD 0 then r else x
    else r

theorem pickBetterBid_not_truthy (a x : BestBidOffer) (h : priceTruthy x.price = false) :
    pickBetterBid a x = a := by
  simp [pickBetterBid, h]

theorem pickBetterOffer_not_truthy (a x : BestBidOffer) (h : priceTruthy x.price = false) :
    pickBetterOffer a x = a := by
  simp [pickBetterOffer, h]

theorem specBestBid_empty_or_truthy (l : List BestBidOffer) :
    specBestBid l = BestBidOffer.empty ∨ priceTruthy (specBestBid l).price = true := by
  induction l with
  | nil => exact Or.inl rfl
  | cons x xs ih =>
    simp only [specBestBid]
    cases htx : priceTruthy x.price with
    | false => simpa using ih
    | true =>
      simp only [if_true]
      split
      · rename_i h
        exact Or.inr h.1
      · exact Or.inr htx

theorem specBestOffer_empty_or_truthy (l : List BestBidOffer) :
    specBestOffer l = BestBidOffer.empty ∨ priceTruthy (specBestOffer l).price = true := by
  induction l with
  | nil => exact Or.inl rfl
  | cons x xs ih =>
    simp only [specBestOffer]
    cases htx : priceTruthy x.price with
    | false => simpa using ih
    | true =>
      simp only [if_true]
      split
      · rename_i h
        exact Or.inr h.1
      · exact Or.inr htx

theorem foldl_pickBetterBid (l : List BestBidOffer) :
    ∀ a, l.foldl pickBetterBid a = pickBetterBid a (specBestBid l) := by
  induction l with
  | nil =>
    intro a
    simp [specBestBid, pickBetterBid_not_truthy a _ priceTruthy_empty]
  | cons x xs ih =>
    intro a
    rw [List.foldl_cons, ih (pickBetterBid a x)]
    simp only [specBestBid]
    cases htx : priceTruthy x.price with
    | false =>
      rw [pickBetterBid_not_truthy a x htx]
      simp [htx]
    | true =>
      cases htr : priceTruthy (specBestBid xs).price with
      | false =>
        rw [pickBetterBid_not_truthy _ _ htr]
        simp [htx, htr]
      | true =>
        by_cases hlt : x.price.getD 0 < (specBestBid xs).price.getD 0
        · rw [if_pos rfl, if_pos ⟨rfl, hlt⟩]
          cases hta : priceTruthy a.price with
          | false => simp [pickBetterBid, hta, htx, htr, hlt]
          | true =>
            by_cases hax : a.price.getD 0 < x.price.getD 0
            · have har : a.price.getD 0 < (specBestBid xs).price.getD 0 := hax.trans hlt
              simp [pickBetterBid, hta, htx, htr, hax, hlt, har]
            · simp [pickBetterBid, hta, htx, htr, hax]
        · rw [if_pos rfl, if_neg (by intro h; exact hlt h.2)]
          cases hta : priceTruthy a.price with
          | false => simp [pickBetterBid, hta, htx, htr, hlt]
          | true =>
            by_cases hax : a.price.getD 0 < x.price.getD 0
            · simp [pickBetterBid, hta, htx, htr, hax, hlt]
            · have har : ¬ a.price.getD 0 < (specBestBid xs).price.getD 0 := by
                intro h
                exact hax (lt_of_lt_of_le h (not_lt.mp hlt))
              simp [pickBetterBid, hta, htx, htr, hax, har]

theorem foldl_pickBetterOffer (l : List BestBidOffer) :
    ∀ a, l.foldl pickBetterOffer a = pickBetterOffer a (specBestOffer l) := by
  induction l with
  | nil =>
    intro a
    simp [specBestOffer, pickBetterOffer_not_truthy a _ priceTruthy_empty]
  | cons x xs ih =>
    intro a
    rw [List.foldl_cons, ih (pickBetterOffer a x)]
    simp only [specBestOffer]
    cases htx : priceTruthy x.price with
    | false =>
      rw [pickBetterOffer_not_truthy a x htx]
      simp [htx]
    | true =>
      cases htr : priceTruthy (specBestOffer xs).price with
      | false =>
        rw [pickBetterOffer_not_truthy _ _ htr]
        simp [htx, htr]
      | true =>
        by_cases hlt : x.price.getD 0 > (specBestOffer xs).price.getD 0
        · rw [if_pos rfl, if_pos ⟨rfl, hlt⟩]
          cases hta : priceTruthy a.price with
          | false => simp [pickBetterOffer, hta, htx, htr, hlt]
          | true =>
            by_cases hax : a.price.getD 0 > x.price.getD 0
            · have har : a.price.getD 0 > (specBestOffer xs).price.getD 0 := hlt.trans hax
              simp [pickBetterOffer, hta, htx, htr, hax, hlt, har]
            · simp [pickBetterOffer, hta, htx, htr, hax]
        · rw [if_pos rfl, if_neg (by intro h; exact hlt h.2)]
          cases hta : priceTruthy a.price with
          | false => simp [pickBetterOffer, hta, htx, htr, hlt]
          | true =>
            by_cases hax : a.price.getD 0 > x.price.getD 0
            · simp [pickBetterOffer, hta, htx, htr, hax, hlt]
            · have har : ¬ a.price.getD 0 > (specBestOffer xs).price.getD 0 := by
                intro h
                exact hax (lt_of_le_of_lt (not_lt.mp hlt) h)
              simp [pickBetterOffer, hta, htx, htr, hax, har]

theorem foldl_pair {α : Type} (f g : BestBidOffer → α → BestBidOffer) (l : List α) :
    ∀ (a b : BestBidOffer),
      l.foldl (fun acc e => (f acc.1 e, g acc.2 e)) (a, b) = (l.foldl f a, l.foldl g b) := by
  induction l with
  | nil => intro a b; rfl
  | cons x xs ih => intro a b; rw [List.foldl_cons, List.foldl_cons, List.foldl_cons, ih]

theorem pickBetterBid_empty (y : BestBidOffer)
    (h : y = BestBidOffer.empty ∨ priceTruthy y.price = true) :
    pickBetterBid BestBidOffer.empty y = y := by
  rcases h with rfl | h
  · rfl
  · simp [pickBetterBid, priceTruthy_empty, h]

theorem pickBetterOffer_empty (y : BestBidOffer)
    (h : y = BestBidOffer.empty ∨ priceTruthy y.price = true) :
    pickBetterOffer BestBidOffer.empty y = y := by
  rcases h with rfl | h
  · rfl
  · simp [pickBetterOffer, priceTruthy_empty, h]

/-- `Market.bbo` without a publisher id computes the spec fold of the
per-exchange bbos, in iteration order. -/
theorem market_bbo_none (mkt : Market) (instrument_id : Nat) :
    mkt.bbo instrument_id none =
      (specBestBid (mkt.exchanges.map (fun e => ((mkt.get_order_book instrument_id e.1).bbo).1)),
       specBestOffer (mkt.exchanges.map (fun e => ((mkt.get_order_book instrument_id e.1).bbo).2))) := by
  unfold Market.bbo
  rw [if_neg (by simp [natTruthy])]
  have hfun : (fun (acc : BestBidOffer × BestBidOffer) (e : Nat × List (Nat × AnyBook)) =>
      let ebbo := (mkt.get_order_book instrument_id e.1).bbo
      (pickBetterBid acc.1 ebbo.1, pickBetterOffer acc.2 ebbo.2)) =
      (fun acc e =>
        ((fun (x : BestBidOffer) (y : Nat × List (Nat × AnyBook)) =>
            pickBetterBid x ((mkt.get_order_book instrument_id y.1).bbo).1) acc.1 e,
         (fun (x : BestBidOffer) (y : Nat × List (Nat × AnyBook)) =>
            pickBetterOffer x ((mkt.get_order_book instrument_id y.1).bbo).2) acc.2 e)) := rfl
  rw [hfun, foldl_pair
    (fun x y => pickBetterBid x ((mkt.get_order_book instrument_id y.1).bbo).1)
    (fun x y => pickBetterOffer x ((mkt.get_order_book instrument_id y.1).bbo).2)
    mkt.exchanges BestBidOffer.empty BestBidOffer.empty]
  rw [← List.foldl_map (fun (e : Nat × List (Nat × AnyBook)) =>
      ((mkt.get_order_book instrument_id e.1).bbo).1) pickBetterBid mkt.exchanges
      BestBidOffer.empty,
    ← List.foldl_map (fun (e : Nat × List (Nat × AnyBook)) =>
      ((mkt.get_order_book instrument_id e.1).bbo).2) pickBetterOffer mkt.exchanges
      BestBidOffer.empty]
  rw [foldl_pickBetterBid, foldl_pickBetterOffer]
  rw [pickBetterBid_empty _ (specBestBid_empty_or_truthy _),
    pickBetterOffer_empty _ (specBestOffer_empty_or_truthy _)]

/-- **C3 (amended: a *nonzero* publisher id delegates).** With a nonzero
publisher id, `Market.bbo` returns exactly that book's `bbo()` (publisher id 0
is falsy in Python and falls through to the fold); without one it folds the
per-exchange bbos keeping the highest-priced bid and lowest-priced offer,
skipping sides whose price is falsy (absent or 0.0), first seen winning
ties — the fold `specBestBid`/`specBestOffer`. -/
theorem claim_C3_market_bbo :
    (∀ (mkt : Market) (instrument_id publisher_id : Nat), publisher_id ≠ 0 →
      mkt.bbo instrument_id (some publisher_id) =
        (mkt.get_order_book instrument_id publisher_id).bbo) ∧
    (∀ (mkt : Market) (instrument_id : Nat),
      mkt.bbo instrument_id none =
        (specBestBid (mkt.exchanges.map
            (fun e => ((mkt.get_order_book instrument_id e.1).bbo).1)),
         specBestOffer (mkt.exchanges.map
            (fun e => ((mkt.get_order_book instrument_id e.1).bbo).2)))) := by
  constructor
  · intro mkt instrument_id publisher_id hp
    unfold Market.bbo
    rw [if_pos (by simp [natTruthy, hp])]
    rfl
  · exact market_bbo_none

/-- A full book for instrument 5 on publisher 1 with one resting bid 100×10. -/
def c3Book : OrderBook :=
  ⟨5, 1, 0, [(9, ('B', 100))], [(100, ⟨100, 10, 1, [⟨9, 100, 10, 1, 5, 'B', 3⟩]⟩)], []⟩

/-- A market tracking only publisher 1. -/
def c3Market : Market := ⟨[(1, [(5, .full c3Book)])]⟩

/-- C3's amended statement at concrete inputs. -/
theorem claim_C3_market_bbo_witness :
    c3Market.bbo 5 (some 1) = (c3Market.get_order_book 5 1).bbo ∧
    c3Market.bbo 5 none =
      (specBestBid (c3Market.exchanges.map (fun e => ((c3Market.get_order_book 5 e.1).bbo).1)),
       specBestOffer (c3Market.exchanges.map (fun e => ((c3Market.get_order_book 5 e.1).bbo).2))) :=
  ⟨claim_C3_market_bbo.1 c3Market 5 1 (by decide), claim_C3_market_bbo.2 c3Market 5⟩

/-- **C3 (counterexample to the claim as stated).** Called *with* the
publisher id 0, whose (0, 5) book is unknown, the claim demands the empty
pair; but `if publisher_id:` is falsy for 0, so the code runs the
consolidated fold and returns publisher 1's bid instead. -/
theorem claim_C3_counterexample :
    c3Market.bbo 5 (some 0) = (⟨10, some 100⟩, ⟨0, none⟩) ∧
    (c3Market.get_order_book 5 0).bbo = (⟨0, none⟩, ⟨0, none⟩) :=
  ⟨by decide, by decide⟩

/-! ## C10 -/

/-- A full book whose only bid rests at price 0.0 (7 shares). -/
def c10Book : OrderBook :=
  ⟨5, 1, 0, [(4, ('B', 0))], [(0, ⟨0, 7, 1, [⟨4, 0, 7, 1, 5, 'B', 3⟩]⟩)], []⟩

/-- A market tracking only publisher 1, whose book is `c10Book`. -/
def c10Market : Market := ⟨[(1, [(5, .full c10Book)])]⟩

/-- **C10.** The consolidated fold tests a per-exchange side by the truthiness
of its price, so a side resting at price 0.0 is treated as empty: the
consolidated result is always either the empty default or has a truthy
(non-`None`, non-zero) price — a 0.0-priced best can never be returned — and
concretely a book whose own `bbo()` reports bid `(price 0.0, size 7)`
contributes nothing to the consolidated pair. -/
theorem claim_C10_zero_price_skipped :
    (∀ (mkt : Market) (instrument_id : Nat),
      ((mkt.bbo instrument_id none).1 = BestBidOffer.empty ∨
        priceTruthy (mkt.bbo instrument_id none).1.price = true) ∧
      ((mkt.bbo instrument_id none).2 = BestBidOffer.empty ∨
        priceTruthy (mkt.bbo instrument_id none).2.price = true)) ∧
    c10Book.bbo = (⟨7, some 0⟩, ⟨0, none⟩) ∧
    c10Market.bbo 5 none = (BestBidOffer.empty, BestBidOffer.empty) := by
  refine ⟨?_, by decide, by decide⟩
  intro mkt instrument_id
  rw [market_bbo_none]
  exact ⟨specBestBid_empty_or_truthy _, specBestOffer_empty_or_truthy _⟩

/-! ## C2 -/

/-- With strictly sorted keys, membership determines `sdGet?`. -/
theorem sdGet?_of_mem {t : List (ℚ × OrderLinkedList)}
    (hp : t.Pairwise (fun a b => a.1 < b.1)) {k : ℚ} {v : OrderLinkedList}
    (hm : (k, v) ∈ t) : sdGet? t k = some v := by
  induction t with
  | nil => simp at hm
  | cons e t ih =>
    rw [List.pairwise_cons] at hp
    rcases List.mem_cons.mp hm with rfl | hm
    · simp [sdGet?_cons]
    · have hlt : e.1 < k := hp.1 (k, v) hm
      rw [sdGet?_cons, if_neg (by intro h; rw [h] at hlt; exact lt_irrefl _ hlt)]
      exact ih hp.2 hm

/-- The cache/key consistency `bbo` relies on: sorted keys, each level keyed by
its own price, each cached depth the sum of its chain's sizes.  It holds in
every state the book's operations produce (the caches move in lock-step with
the chains). -/
def OrderBook.DepthConsistent (b : OrderBook) : Prop :=
  b.bids.Pairwise (fun a c => a.1 < c.1) ∧
  b.offers.Pairwise (fun a c => a.1 < c.1) ∧
  (∀ e ∈ b.bids, e.2.price = e.1 ∧
    e.2.depth = (((e.2.nodes.map (fun n => n.size)).sum : Nat) : Int)) ∧
  (∀ e ∈ b.offers, e.2.price = e.1 ∧
    e.2.depth = (((e.2.nodes.map (fun n => n.size)).sum : Nat) : Int))

/-- **C2.** On a cache-consistent book, `bbo()` reports: best bid = the
maximum bid key with the aggregate depth (sum of resting sizes) of its queue,
the empty default when the bid map is empty; symmetrically the best offer uses
the minimum offer key.  (`bbo` is a pure function of the state in this
embedding, as in the source, which only reads in `bbo`: it cannot mutate.) -/
theorem claim_C2_bbo_best_levels (b : OrderBook) (h : b.DepthConsistent) :
    ((b.bids = [] → (b.bbo).1 = BestBidOffer.empty) ∧
     (b.bids ≠ [] → ∃ p lvl, sdGet? b.bids p = some lvl ∧ (∀ e ∈ b.bids, e.1 ≤ p) ∧
        (b.bbo).1 = ⟨(((lvl.nodes.map (fun n => n.size)).sum : Nat) : Int), some p⟩)) ∧
    ((b.offers = [] → (b.bbo).2 = BestBidOffer.empty) ∧
     (b.offers ≠ [] → ∃ p lvl, sdGet? b.offers p = some lvl ∧ (∀ e ∈ b.offers, p ≤ e.1) ∧
        (b.bbo).2 = ⟨(((lvl.nodes.map (fun n => n.size)).sum : Nat) : Int), some p⟩)) := by
  obtain ⟨hpb, hpo, hb, ho⟩ := h
  constructor
  · constructor
    · intro hnil
      unfold OrderBook.bbo
      rw [List.getLast?_eq_none_iff.mpr hnil]
    · intro hne
      obtain ⟨e, hlast⟩ : ∃ e, b.bids.getLast? = some e := by
        cases hl : b.bids.getLast? with
        | none => exact absurd (List.getLast?_eq_none_iff.mp hl) hne
        | some e => exact ⟨e, rfl⟩
      have hmem : e ∈ b.bids := getLast?_mem' hlast
      obtain ⟨hprice, hdepth⟩ := hb e hmem
      refine ⟨e.1, e.2, sdGet?_of_mem hpb (by simpa using hmem), getLast?_max _ hpb hlast, ?_⟩
      unfold OrderBook.bbo
      rw [hlast]
      simp [OrderLinkedList.get_num_shares, hprice, hdepth]
  · constructor
    · intro hnil
      unfold OrderBook.bbo
      rw [hnil]
      rfl
    · intro hne
      obtain ⟨e, hhead⟩ : ∃ e, b.offers.head? = some e := by
        cases hl : b.offers.head? with
        | none => exact absurd (List.head?_eq_none_iff.mp hl) hne
        | some e => exact ⟨e, rfl⟩
      have hmem : e ∈ b.offers := List.mem_of_mem_head? hhead
      obtain ⟨hprice, hdepth⟩ := ho e hmem
      refine ⟨e.1, e.2, sdGet?_of_mem hpo (by simpa using hmem), head?_min _ hpo hhead, ?_⟩
      unfold OrderBook.bbo
      rw [hhead]
      simp [OrderLinkedList.get_num_shares, hprice, hdepth]

/-- C2 at a concrete input: one bid level 100×10, no offers. -/
theorem claim_C2_bbo_best_levels_witness :
    ((c3Book.bids = [] → (c3Book.bbo).1 = BestBidOffer.empty) ∧
     (c3Book.bids ≠ [] → ∃ p lvl, sdGet? c3Book.bids p = some lvl ∧
        (∀ e ∈ c3Book.bids, e.1 ≤ p) ∧
        (c3Book.bbo).1 = ⟨(((lvl.nodes.map (fun n => n.size)).sum : Nat) : Int), some p⟩)) ∧
    ((c3Book.offers = [] → (c3Book.bbo).2 = BestBidOffer.empty) ∧
     (c3Book.offers ≠ [] → ∃ p lvl, sdGet? c3Book.offers p = some lvl ∧
        (∀ e ∈ c3Book.offers, p ≤ e.1) ∧
        (c3Book.bbo).2 = ⟨(((lvl.nodes.map (fun n => n.size)).sum : Nat) : Int), some p⟩)) :=
  claim_C2_bbo_best_levels c3Book (by
    refine ⟨?_, ?_, ?_, ?_⟩ <;> decide)

/-! ## The book invariant -/

/-- Counter/content consistency of a level on side `s`, without demanding a
non-empty chain (the shape `_add` may start from). -/
def OrderLinkedList.WF0 (s : Char) (l : OrderLinkedList) : Prop :=
  l.num_orders = (l.nodes.length : Int) ∧
  l.depth = (((l.nodes.map (fun n => n.size)).sum : Nat) : Int) ∧
  (∀ n ∈ l.nodes, 0 < n.size ∧ n.price = l.price ∧ n.side = s) ∧
  (l.nodes.map (fun n => n.order_id)).Nodup

/-- Well-formedness of a level resting in a side map. -/
def OrderLinkedList.WF (s : Char) (l : OrderLinkedList) : Prop :=
  l.WF0 s ∧ l.nodes ≠ []

/-- Well-formedness of one side map. -/
def treeWF (s : Char) (t : List (ℚ × OrderLinkedList)) : Prop :=
  t.Pairwise (fun a b => a.1 < b.1) ∧ ∀ e ∈ t, e.2.price = e.1 ∧ e.2.WF s

/-- The queue at key `p` holds a node with the given order id. -/
def levelHasId (t : List (ℚ × OrderLinkedList)) (p : ℚ) (oid : Nat) : Prop :=
  match sdGet? t p with
  | none => False
  | some lvl => oid ∈ lvl.nodes.map (fun n => n.order_id)

instance (t : List (ℚ × OrderLinkedList)) (p : ℚ) (oid : Nat) :
    Decidable (levelHasId t p oid) := by
  unfold levelHasId
  split <;> infer_instance

/-- The full-depth book's invariant: both side maps well formed, the id index
duplicate-free, every index entry backed by a node in the queue its handle
names, and every queued node indexed at its own id with its level's side and
key. -/
def OrderBook.Valid (b : OrderBook) : Prop :=
  (∀ s ∈ (['A', 'B'] : List Char), treeWF s (b.sideTree s)) ∧
  (b.orders.map (fun e => e.1)).Nodup ∧
  (∀ e ∈ b.orders, sideOk e.2.1 ∧ levelHasId (b.sideTree e.2.1) e.2.2 e.1) ∧
  (∀ s ∈ (['A', 'B'] : List Char), ∀ kl ∈ b.sideTree s, ∀ n ∈ kl.2.nodes,
    alookup b.orders n.order_id = some (s, kl.1))

theorem sideOk_mem {s : Char} (hs : sideOk s) : s ∈ (['A', 'B'] : List Char) := by
  rcases hs with h | h <;> simp [h]

instance (s : Char) (l : OrderLinkedList) : Decidable (l.WF0 s) := by
  unfold OrderLinkedList.WF0; infer_instance

instance (s : Char) (l : OrderLinkedList) : Decidable (l.WF s) := by
  unfold OrderLinkedList.WF; infer_instance

instance (s : Char) (t : List (ℚ × OrderLinkedList)) : Decidable (treeWF s t) := by
  unfold treeWF; infer_instance

instance (b : OrderBook) : Decidable b.Valid := by
  unfold OrderBook.Valid; infer_instance

/-! ## alookup lemmas -/

theorem alookup_nil {α : Type} (k : Nat) : alookup ([] : List (Nat × α)) k = none := rfl

theorem alookup_cons {α : Type} (e : Nat × α) (l : List (Nat × α)) (k : Nat) :
    alookup (e :: l) k = if e.1 = k then some e.2 else alookup l k := by
  by_cases h : e.1 = k <;> simp [alookup, List.find?_cons, h]

theorem alookup_mem {α : Type} {l : List (Nat × α)} {k : Nat} {v : α}
    (h : alookup l k = some v) : (k, v) ∈ l := by
  rw [alookup] at h
  rcases Option.map_eq_some'.mp h with ⟨e, he, hv⟩
  have h1 := List.find?_some he
  have h2 := List.mem_of_find?_eq_some he
  simp only [decide_eq_true_eq] at h1
  have : e = (k, v) := by
    cases e
    simp only at h1 hv
    simp [h1, hv]
  exact this ▸ h2

theorem alookup_eq_none {α : Type} {l : List (Nat × α)} {k : Nat}
    (h : alookup l k = none) : ∀ e ∈ l, e.1 ≠ k := by
  intro e he
  rw [alookup, Option.map_eq_none'] at h
  have := List.find?_eq_none.mp h e he
  simpa using this

theorem alookup_eraseP_ne {α : Type} (l : List (Nat × α)) (k k' : Nat) (h : k' ≠ k) :
    alookup (l.eraseP (fun e => decide (e.1 = k))) k' = alookup l k' := by
  induction l with
  | nil => rfl
  | cons e l ih =>
    by_cases he : e.1 = k
    · rw [List.eraseP_cons_of_pos (by simp [he])]
      rw [alookup_cons, if_neg (by rw [he]; exact fun hh => h hh.symm)]
    · rw [List.eraseP_cons_of_neg (by simp [he])]
      rw [alookup_cons, alookup_cons]
      by_cases he' : e.1 = k'
      · simp [he']
      · rw [if_neg he', if_neg he']
        exact ih

theorem alookup_eraseP_self {α : Type} (l : List (Nat × α)) (k : Nat)
    (hnodup : (l.map (fun e => e.1)).Nodup) :
    alookup (l.eraseP (fun e => decide (e.1 = k))) k = none := by
  induction l with
  | nil => rfl
  | cons e l ih =>
    rw [List.map_cons, List.nodup_cons] at hnodup
    by_cases he : e.1 = k
    · rw [List.eraseP_cons_of_pos (by simp [he])]
      rw [alookup, Option.map_eq_none', List.find?_eq_none]
      intro x hx
      simp only [decide_eq_true_eq]
      intro hk
      exact hnodup.1 (he ▸ hk ▸ List.mem_map_of_mem (fun e => e.1) hx)
    · rw [List.eraseP_cons_of_neg (by simp [he])]
      rw [alookup_cons, if_neg he]
      exact ih hnodup.2

theorem keys_nodup_eraseP {α : Type} (l : List (Nat × α)) (p : Nat × α → Bool)
    (h : (l.map (fun e => e.1)).Nodup) :
    ((l.eraseP p).map (fun e => e.1)).Nodup :=
  ((List.eraseP_sublist l).map (fun e => e.1)).nodup h

/-! ## More SortedDict algebra (for the cancel law) -/

theorem sdInsert_sdInsert (t : List (ℚ × OrderLinkedList)) (k : ℚ) (v w : OrderLinkedList) :
    sdInsert (sdInsert t k v) k w = sdInsert t k w := by
  induction t with
  | nil => simp [sdInsert]
  | cons e t ih =>
    by_cases h1 : k < e.1
    · simp [sdInsert, h1, lt_irrefl]
    · by_cases h2 : k = e.1
      · simp [sdInsert, h1, h2, lt_irrefl]
      · simp only [sdInsert, if_neg h1, if_neg h2]
        rw [ih]

theorem sdInsert_of_get?_eq {t : List (ℚ × OrderLinkedList)} {k : ℚ} {v : OrderLinkedList}
    (hp : t.Pairwise (fun a b => a.1 < b.1)) (hg : sdGet? t k = some v) :
    sdInsert t k v = t := by
  induction t with
  | nil => simp [sdGet?_nil] at hg
  | cons e t ih =>
    rw [List.pairwise_cons] at hp
    rw [sdGet?_cons] at hg
    by_cases h2 : e.1 = k
    · rw [if_pos h2] at hg
      simp only [Option.some.injEq] at hg
      simp only [sdInsert]
      rw [if_neg (by rw [← h2]; exact lt_irrefl _), if_pos h2.symm]
      cases e
      simp only at h2 hg
      simp [h2, hg]
    · rw [if_neg h2] at hg
      have hmem := sdGet?_mem hg
      have hlt : e.1 < k := hp.1 (k, v) hmem
      simp only [sdInsert]
      rw [if_neg (by exact not_lt.mpr (le_of_lt hlt)), if_neg (by
        intro h; rw [h] at hlt; exact lt_irrefl _ hlt)]
      rw [ih hp.2 hg]

theorem sdErase_sdInsert_fresh {t : List (ℚ × OrderLinkedList)} {k : ℚ}
    (v : OrderLinkedList) (hg : sdGet? t k = none) :
    sdErase (sdInsert t k v) k = t := by
  induction t with
  | nil => simp [sdInsert, sdErase]
  | cons e t ih =>
    rw [sdGet?_cons] at hg
    by_cases h2 : e.1 = k
    · simp [h2] at hg
    · rw [if_neg h2] at hg
      by_cases h1 : k < e.1
      · simp only [sdInsert]
        rw [if_pos h1, sdErase, List.eraseP_cons_of_pos (by simp)]
      · simp only [sdInsert]
        rw [if_neg h1, if_neg (fun h => h2 h.symm), sdErase,
          List.eraseP_cons_of_neg (by simp [h2])]
        rw [sdErase] at ih
        rw [ih hg]

theorem setSideTree_sideTree_self (b : OrderBook) (s : Char) :
    b.setSideTree s (b.sideTree s) = b := by
  unfold OrderBook.setSideTree OrderBook.sideTree
  by_cases h : s = 'A' <;> simp [h]

/-- A node resting in the queue at `(s, k)` is indexed there. -/
theorem valid_node_indexed {b : OrderBook} (hv : b.Valid) {s : Char} (hs : sideOk s)
    {k : ℚ} {lvl : OrderLinkedList} (hget : sdGet? (b.sideTree s) k = some lvl)
    {n : OrderNode} (hn : n ∈ lvl.nodes) :
    alookup b.orders n.order_id = some (s, k) :=
  hv.2.2.2 s (sideOk_mem hs) (k, lvl) (sdGet?_mem hget) n hn

/-! ## C5 -/

/-- The side map a valid book hands `_side_dict` is well formed. -/
theorem valid_treeWF {b : OrderBook} (hv : b.Valid) {s : Char} (hs : sideOk s) :
    treeWF s (b.sideTree s) :=
  hv.1 s (sideOk_mem hs)

/-- Appending `m` to a chain free of its order id puts its node where
`findNode?` finds it. -/
theorem findNode?_append_fresh (l : OrderLinkedList) (m : Message)
    (hclean : ∀ x ∈ l.nodes, x.order_id ≠ m.order_id) :
    (l.append m).findNode? m.order_id = some (OrderNode.ofMessage m) := by
  unfold OrderLinkedList.findNode? OrderLinkedList.append
  simp only [List.find?_append]
  rw [List.find?_eq_none.mpr (by
    intro x hx
    simp only [decide_eq_true_eq]
    exact hclean x hx)]
  simp [OrderNode.ofMessage]

/-- Removing the full size of the just-appended order restores the chain and
moves the caches by `+size−size` / `+1−1`. -/
theorem remove_appended (l : OrderLinkedList) (m : Message)
    (hclean : ∀ x ∈ l.nodes, x.order_id ≠ m.order_id) :
    (l.append m).remove m.order_id m.size =
      .ok { l with depth := l.depth + (m.size : Int) - (m.size : Int),
                   num_orders := l.num_orders + 1 - 1,
                   nodes := l.nodes } := by
  unfold OrderLinkedList.remove
  rw [findNode?_append_fresh l m hclean]
  dsimp only [OrderNode.ofMessage]
  rw [if_neg (by omega), if_pos (by omega)]
  have herase : (l.append m).nodes.eraseP
      (fun n => decide (n.order_id = m.order_id)) = l.nodes := by
    have := eraseP_id_append l.nodes (OrderNode.ofMessage m) [] m.order_id
      hclean (by simp [OrderNode.ofMessage])
    unfold OrderLinkedList.append
    simpa using this
  rw [show ((l.append m).nodes.eraseP (fun n => decide (n.order_id = m.order_id)))
      = l.nodes from herase]
  rfl

/-- **C5.** On a valid book in which `m.order_id` is not resting, an add of
`m` followed by a cancel with the same order id and size restores the orders
index and both side maps exactly; only `ts_last_update` moves. -/
theorem claim_C5_cancel_law (b : OrderBook) (m m' : Message) (b1 : OrderBook)
    (hv : b.Valid)
    (hA : m.action = 'A') (hC : m'.action = 'C')
    (hid : m'.order_id = m.order_id) (hsz : m'.size = m.size)
    (hfresh : alookup b.orders m.order_id = none)
    (hflags' : m'.flags.land F_TOB = 0)
    (happly : b.apply m = .ok b1) :
    ∃ b2, b1.apply m' = .ok b2 ∧ b2.orders = b.orders ∧ b2.bids = b.bids ∧
      b2.offers = b.offers ∧ b2.ts_last_update = m'.ts_recv := by
  -- Step 1: invert the add.
  unfold OrderBook.apply at happly
  split at happly
  · simp at happly
  dsimp only at happly
  rw [hA, if_neg (by decide), if_neg (by decide)] at happly
  cases haddres : b._add m with
  | error e => rw [haddres] at happly; simp at happly
  | ok bAdd =>
  rw [haddres] at happly
  simp only [Except.ok.injEq] at happly
  have hb1 : b1 = { bAdd with ts_last_update := m.ts_recv } := happly.symm
  unfold OrderBook._add at haddres
  rw [if_neg (by simp [hfresh])] at haddres
  split at haddres
  · simp at haddres
  split at haddres
  case isFalse.isTrue hup hside =>
    dsimp only at haddres
    simp only [Except.ok.injEq] at haddres
    have hbAdd := haddres.symm
    clear haddres happly
    -- Generic facts about the touched side map.
    have hpair : (b.sideTree m.side).Pairwise (fun a c => a.1 < c.1) :=
      (valid_treeWF hv hside).1
    have hclean : ∀ x ∈ ((sdGet? (b.sideTree m.side) m.price).getD
        (OrderLinkedList.fresh m.price)).nodes, x.order_id ≠ m.order_id := by
      intro x hx hxid
      cases hg : sdGet? (b.sideTree m.side) m.price with
      | none => rw [hg] at hx; simp [OrderLinkedList.fresh] at hx
      | some lvl =>
        rw [hg] at hx
        simp only [Option.getD_some] at hx
        have := valid_node_indexed hv hside hg hx
        rw [hxid, hfresh] at this
        exact Option.noConfusion this
    -- The level round trip: full-cancelling the appended node restores the tree.
    have htree2 : ∀ lvlB,
        lvlB = { (sdGet? (b.sideTree m.side) m.price).getD (OrderLinkedList.fresh m.price) with
                 depth := ((sdGet? (b.sideTree m.side) m.price).getD
                   (OrderLinkedList.fresh m.price)).depth + (m.size : Int) - (m.size : Int),
                 num_orders := ((sdGet? (b.sideTree m.side) m.price).getD
                   (OrderLinkedList.fresh m.price)).num_orders + 1 - 1,
                 nodes := ((sdGet? (b.sideTree m.side) m.price).getD
                   (OrderLinkedList.fresh m.price)).nodes } →
        (if lvlB.num_orders = 0 then
          sdErase (sdInsert (sdInsert (b.sideTree m.side) m.price
            (((sdGet? (b.sideTree m.side) m.price).getD
              (OrderLinkedList.fresh m.price)).append m)) m.price lvlB) m.price
         else sdInsert (sdInsert (b.sideTree m.side) m.price
            (((sdGet? (b.sideTree m.side) m.price).getD
              (OrderLinkedList.fresh m.price)).append m)) m.price lvlB) =
        b.sideTree m.side := by
      intro lvlB hB
      rw [sdInsert_sdInsert]
      cases hg : sdGet? (b.sideTree m.side) m.price with
      | some lvl =>
        have hmem := sdGet?_mem hg
        have hwf := ((valid_treeWF hv hside).2 _ hmem).2
        have hlvlB : lvlB = lvl := by
          rw [hB, hg]
          simp only [Option.getD_some]
          cases lvl
          simp only [OrderLinkedList.mk.injEq, true_and, and_true]
          constructor <;> omega
        have hne : lvlB.num_orders ≠ 0 := by
          rw [hlvlB]
          rcases hwf with ⟨⟨hn, _, _, _⟩, hnonempty⟩
          rw [hn]
          simpa using hnonempty
        rw [if_neg hne, hlvlB]
        exact sdInsert_of_get?_eq hpair hg
      | none =>
        have hlvlB : lvlB = { OrderLinkedList.fresh m.price with
            depth := (0 : Int) + (m.size : Int) - (m.size : Int),
            num_orders := (0 : Int) + 1 - 1,
            nodes := ([] : List OrderNode) } := by
          rw [hB, hg]
          rfl
        have hzero : lvlB.num_orders = 0 := by rw [hlvlB]; simp
        rw [if_pos hzero]
        exact sdErase_sdInsert_fresh _ hg
    -- Step 2: compute the cancel.
    have hb1orders : b1.orders = (m.order_id, m.side, m.price) :: b.orders := by
      rw [hb1, hbAdd]
      dsimp only
      rw [orders_setSideTree]
    have hb1tree : b1.sideTree m.side = sdInsert (b.sideTree m.side) m.price
        (((sdGet? (b.sideTree m.side) m.price).getD (OrderLinkedList.fresh m.price)).append m) := by
      rw [hb1, hbAdd]
      unfold OrderBook.sideTree OrderBook.setSideTree
      by_cases h : m.side = 'A' <;> simp [h]
    have hset : b1.setSideTree m.side (b.sideTree m.side) =
        { b with ts_last_update := m.ts_recv,
                 orders := (m.order_id, m.side, m.price) :: b.orders } := by
      rw [hb1, hbAdd]
      unfold OrderBook.sideTree OrderBook.setSideTree
      by_cases h : m.side = 'A' <;> simp [h]
    have hcancel : b1._cancel m' = .ok { b with ts_last_update := m.ts_recv } := by
      unfold OrderBook._cancel
      rw [hid, hsz, hb1orders, alookup_cons, if_pos rfl]
      dsimp only
      rw [if_pos hside, hb1tree, sdGet?_insert_self]
      dsimp only
      rw [findNode?_append_fresh _ m hclean]
      dsimp only
      rw [remove_appended _ m hclean]
      dsimp only [OrderNode.ofMessage]
      rw [if_pos (Nat.sub_self m.size)]
      rw [htree2 _ rfl]
      rw [hset]
      dsimp only
      rw [List.eraseP_cons_of_pos (by simp)]
    -- Step 3: wrap with apply's timestamp.
    refine ⟨{ b with ts_last_update := m'.ts_recv }, ?_, rfl, rfl, rfl, rfl⟩
    unfold OrderBook.apply
    rw [if_neg (by simp [hflags'])]
    dsimp only
    rw [hC, if_neg (by decide), if_neg (by decide), if_neg (by decide)]
    rw [hcancel]
    simp
  case isFalse.isFalse => simp at haddres

def c5MsgAdd : Message := ⟨'A', 7, 4, 2, 1, 0, 'B', 50, 0, 101⟩

def c5MsgCan : Message := ⟨'C', 7, 4, 2, 1, 0, 'B', 60, 0, 101⟩

/-- The book after adding order 7 at a fresh 101 level on top of `c1Book`. -/
def c5BookMid : OrderBook :=
  ⟨1, 2, 50, [(7, ('B', 101)), (1, ('B', 100))],
   [(100, ⟨100, 5, 1, [⟨1, 100, 5, 2, 1, 'B', 10⟩]⟩), (101, ⟨101, 4, 1, [⟨7, 101, 4, 2, 1, 'B', 50⟩]⟩)],
   []⟩

/-- C5 at a concrete input: add 101×4 (id 7) onto `c1Book`, cancel it in
full; index and both side maps return to the original. -/
theorem claim_C5_cancel_law_witness :
    ∃ b2, c5BookMid.apply c5MsgCan = .ok b2 ∧ b2.orders = c1Book.orders ∧
      b2.bids = c1Book.bids ∧ b2.offers = c1Book.offers ∧
      b2.ts_last_update = c5MsgCan.ts_recv :=
  claim_C5_cancel_law c1Book c5MsgAdd c5MsgCan c5BookMid (by decide) (by decide) (by decide)
    (by decide) (by decide) (by decide) (by decide) (by decide)

/-! ## C4: invariant preservation -/

theorem sideTree_orders_update (x : OrderBook) (o : List (Nat × Char × ℚ)) (s : Char) :
    ({ x with orders := o } : OrderBook).sideTree s = x.sideTree s := by
  unfold OrderBook.sideTree
  by_cases h : s = 'A' <;> simp [h]

theorem sideTree_ts_update (x : OrderBook) (v : Nat) (s : Char) :
    ({ x with ts_last_update := v } : OrderBook).sideTree s = x.sideTree s := by
  unfold OrderBook.sideTree
  by_cases h : s = 'A' <;> simp [h]

theorem sideTree_setSideTree_ne (b : OrderBook) {s s' : Char} (hs : sideOk s)
    (hs' : sideOk s') (hne : s ≠ s') (t : List (ℚ × OrderLinkedList)) :
    (b.setSideTree s' t).sideTree s = b.sideTree s := by
  rcases hs with h | h <;> rcases hs' with h' | h' <;> subst h <;> subst h' <;>
    first
    | exact absurd rfl hne
    | (unfold OrderBook.setSideTree OrderBook.sideTree; simp)

/-- Inversion of a successful `_add`. -/
theorem _add_ok_inv {b : OrderBook} {m : Message} {b' : OrderBook}
    (h : b._add m = .ok b') :
    alookup b.orders m.order_id = none ∧ m.price ≠ UNDEF_PRICE ∧ sideOk m.side ∧
    b' = { b.setSideTree m.side (sdInsert (b.sideTree m.side) m.price
            (((sdGet? (b.sideTree m.side) m.price).getD
              (OrderLinkedList.fresh m.price)).append m)) with
           orders := (m.order_id, m.side, m.price) :: b.orders } := by
  unfold OrderBook._add at h
  split at h
  · simp at h
  split at h
  · simp at h
  split at h
  case isFalse.isFalse.isTrue hdup hup hside =>
    dsimp only at h
    simp only [Except.ok.injEq] at h
    refine ⟨?_, hup, hside, ?_⟩
    · cases halo : alookup b.orders m.order_id with
      | none => rfl
      | some v => rw [halo] at hdup; simp at hdup
    · rw [← h, orders_setSideTree]
  case isFalse.isFalse.isFalse => simp at h

theorem mem_sideOk {s : Char} (hs : s ∈ (['A', 'B'] : List Char)) : sideOk s := by
  unfold sideOk
  simpa using hs

theorem levelHasId_intro {t : List (ℚ × OrderLinkedList)} {p : ℚ} {oid : Nat}
    {lvl : OrderLinkedList} (h1 : sdGet? t p = some lvl)
    (h2 : oid ∈ lvl.nodes.map (fun n => n.order_id)) : levelHasId t p oid := by
  unfold levelHasId
  rw [h1]
  exact h2

theorem levelHasId_elim {t : List (ℚ × OrderLinkedList)} {p : ℚ} {oid : Nat}
    (h : levelHasId t p oid) :
    ∃ lvl, sdGet? t p = some lvl ∧ oid ∈ lvl.nodes.map (fun n => n.order_id) := by
  unfold levelHasId at h
  cases hg : sdGet? t p with
  | none => rw [hg] at h; exact absurd h id
  | some lvl => rw [hg] at h; exact ⟨lvl, rfl, h⟩

/-- Appending a positive-size node of the level's price and side, with a fresh
id, keeps the level well formed. -/
theorem OrderLinkedList.append_WF {s : Char} {l : OrderLinkedList} {m : Message}
    (h0 : l.WF0 s) (hpr : m.price = l.price) (hsd : m.side = s) (hpos : 0 < m.size)
    (hfree : ∀ x ∈ l.nodes, x.order_id ≠ m.order_id) : (l.append m).WF s := by
  obtain ⟨hnum, hdep, hfacts, hnd⟩ := h0
  refine ⟨⟨?_, ?_, ?_, ?_⟩, by simp [OrderLinkedList.append]⟩
  · simp only [OrderLinkedList.append, List.length_append, List.length_cons,
      List.length_nil]
    omega
  · simp only [OrderLinkedList.append, List.map_append, List.sum_append]
    simp only [OrderNode.ofMessage, List.map_cons, List.map_nil, List.sum_cons,
      List.sum_nil]
    omega
  · intro n hn
    simp only [OrderLinkedList.append] at hn
    rcases List.mem_append.mp hn with hn | hn
    · exact hfacts n hn
    · simp only [List.mem_singleton] at hn
      subst hn
      exact ⟨hpos, hpr, hsd⟩
  · simp only [OrderLinkedList.append, List.map_append, OrderNode.ofMessage,
      List.map_cons, List.map_nil]
    rw [List.nodup_append]
    refine ⟨hnd, List.nodup_singleton _, ?_⟩
    intro a ha hb
    simp only [List.mem_singleton] at hb
    subst hb
    obtain ⟨x, hx, hxa⟩ := List.mem_map.mp ha
    exact hfree x hx hxa

/-- `_add` (of a positive size) preserves the book invariant. -/
theorem _add_preserves_valid {b : OrderBook} {m : Message} {b' : OrderBook}
    (hv : b.Valid) (hpos : 0 < m.size) (h : b._add m = .ok b') : b'.Valid := by
  obtain ⟨hfresh, hup, hside, hb'⟩ := _add_ok_inv h
  have hTW := hv.1
  have hND := hv.2.1
  have hIDX := hv.2.2.1
  have hNI := hv.2.2.2
  have hclean : ∀ x ∈ ((sdGet? (b.sideTree m.side) m.price).getD
      (OrderLinkedList.fresh m.price)).nodes, x.order_id ≠ m.order_id := by
    intro x hx hxid
    cases hg : sdGet? (b.sideTree m.side) m.price with
    | none => rw [hg] at hx; simp [OrderLinkedList.fresh] at hx
    | some lvl =>
      rw [hg] at hx
      simp only [Option.getD_some] at hx
      have := valid_node_indexed hv hside hg hx
      rw [hxid, hfresh] at this
      exact Option.noConfusion this
  have hlvl0wf0 : ((sdGet? (b.sideTree m.side) m.price).getD
      (OrderLinkedList.fresh m.price)).WF0 m.side := by
    cases hg : sdGet? (b.sideTree m.side) m.price with
    | none => exact ⟨rfl, rfl, by simp [OrderLinkedList.fresh], by simp [OrderLinkedList.fresh]⟩
    | some lvl =>
      simp only [Option.getD_some]
      exact (((valid_treeWF hv hside).2 _ (sdGet?_mem hg)).2).1
  have hlvl0pr : m.price = ((sdGet? (b.sideTree m.side) m.price).getD
      (OrderLinkedList.fresh m.price)).price := by
    cases hg : sdGet? (b.sideTree m.side) m.price with
    | none => rfl
    | some lvl =>
      simp only [Option.getD_some]
      exact (((valid_treeWF hv hside).2 _ (sdGet?_mem hg)).1).symm
  subst hb'
  refine ⟨?_, ?_, ?_, ?_⟩
  · -- both side maps stay well formed
    intro s hs
    rw [sideTree_orders_update]
    by_cases heq : s = m.side
    · rw [heq, sideTree_setSideTree_self]
      refine ⟨pairwise_sdInsert _ _ (valid_treeWF hv hside).1, ?_⟩
      intro e he
      rcases mem_sdInsert he with rfl | hein
      · exact ⟨hlvl0pr.symm, OrderLinkedList.append_WF hlvl0wf0 hlvl0pr rfl hpos hclean⟩
      · exact (valid_treeWF hv hside).2 e hein
    · rw [sideTree_setSideTree_ne b (mem_sideOk hs) hside heq]
      exact hTW s hs
  · -- the id index stays duplicate-free
    simp only [List.map_cons]
    rw [List.nodup_cons]
    refine ⟨?_, hND⟩
    intro hmem
    obtain ⟨e, he, hei⟩ := List.mem_map.mp hmem
    exact alookup_eq_none hfresh e he hei
  · -- every index entry is backed by a queued node
    intro e he
    rw [sideTree_orders_update]
    rcases List.mem_cons.mp he with rfl | he
    · refine ⟨hside, ?_⟩
      rw [sideTree_setSideTree_self]
      refine levelHasId_intro (sdGet?_insert_self _ _ _) ?_
      simp [OrderLinkedList.append, OrderNode.ofMessage]
    · refine ⟨(hIDX e he).1, ?_⟩
      by_cases heq : e.2.1 = m.side
      · rw [heq, sideTree_setSideTree_self]
        obtain ⟨lvl, hg, hmem⟩ := levelHasId_elim (hIDX e he).2
        rw [heq] at hg
        by_cases hp : e.2.2 = m.price
        · rw [hp]
          refine levelHasId_intro (sdGet?_insert_self _ _ _) ?_
          rw [hp] at hg
          rw [hg]
          simp only [Option.getD_some, OrderLinkedList.append, List.map_append]
          exact List.mem_append_left _ hmem
        · exact levelHasId_intro (by rw [sdGet?_insert_ne _ _ _ _ hp]; exact hg) hmem
      · rw [sideTree_setSideTree_ne b (hIDX e he).1 hside heq]
        exact (hIDX e he).2
  · -- every queued node is indexed
    intro s hs kl hkl n hn
    rw [sideTree_orders_update] at hkl
    rw [alookup_cons]
    by_cases heq : s = m.side
    · rw [heq, sideTree_setSideTree_self] at hkl
      rcases mem_sdInsert hkl with rfl | hold
      · simp only [OrderLinkedList.append] at hn
        rcases List.mem_append.mp hn with hn | hn
        · rw [if_neg (by simpa using fun hh => hclean n hn hh.symm)]
          cases hg : sdGet? (b.sideTree m.side) m.price with
          | none => rw [hg] at hn; simp [OrderLinkedList.fresh] at hn
          | some lvl =>
            rw [hg] at hn
            simp only [Option.getD_some] at hn
            rw [heq]
            exact valid_node_indexed hv hside hg hn
        · simp only [List.mem_singleton] at hn
          subst hn
          simp [OrderNode.ofMessage, heq]
      · have hni := hNI m.side (sideOk_mem hside) kl hold n hn
        rw [if_neg (by
          intro hh
          rw [← hh, hfresh] at hni
          exact Option.noConfusion hni)]
        rw [heq]
        exact hni
    · rw [sideTree_setSideTree_ne b (mem_sideOk hs) hside heq] at hkl
      have hni := hNI s hs kl hkl n hn
      rw [if_neg (by
        intro hh
        rw [← hh, hfresh] at hni
        exact Option.noConfusion hni)]
      exact hni

theorem sdErase_sdInsert {t : List (ℚ × OrderLinkedList)}
    (hp : t.Pairwise (fun a c => a.1 < c.1)) (k : ℚ) (v : OrderLinkedList) :
    sdErase (sdInsert t k v) k = sdErase t k := by
  induction t with
  | nil => simp [sdInsert, sdErase]
  | cons e t ih =>
    rw [List.pairwise_cons] at hp
    by_cases h1 : k < e.1
    · simp only [sdInsert, if_pos h1, sdErase]
      rw [List.eraseP_cons_of_pos (by simp)]
      have hall : ∀ x ∈ e :: t, ¬ (decide (x.1 = k) = true) := by
        intro x hx
        simp only [decide_eq_true_eq]
        rcases List.mem_cons.mp hx with rfl | hx
        · intro hh; rw [hh] at h1; exact lt_irrefl _ h1
        · intro hh
          have := hp.1 x hx
          rw [hh] at this
          exact lt_irrefl _ (h1.trans this)
      exact (List.eraseP_of_forall_not hall).symm
    · by_cases h2 : k = e.1
      · simp only [sdInsert, if_neg h1, if_pos h2, sdErase]
        rw [List.eraseP_cons_of_pos (by simp [h2.symm]), List.eraseP_cons_of_pos (by simp [h2.symm])]
      · simp only [sdInsert, if_neg h1, if_neg h2, sdErase]
        rw [List.eraseP_cons_of_neg (by simp; exact fun h => h2 h.symm),
          List.eraseP_cons_of_neg (by simp; exact fun h => h2 h.symm)]
        rw [show List.eraseP (fun x => decide (x.1 = k)) (sdInsert t k v)
          = sdErase (sdInsert t k v) k from rfl, ih hp.2]
        rfl

theorem mem_sdErase {t : List (ℚ × OrderLinkedList)} {k : ℚ} {e : ℚ × OrderLinkedList}
    (h : e ∈ sdErase t k) : e ∈ t :=
  (List.eraseP_sublist t).subset h

/-- Erasing the (unique) entry of a key drops exactly it. -/
theorem mem_eraseP_ne_key {α : Type} {l : List (Nat × α)} {k : Nat} {v : α}
    (hnd : (l.map (fun e => e.1)).Nodup) (hlk : alookup l k = some v) :
    ∀ e ∈ l.eraseP (fun e => decide (e.1 = k)), e ∈ l ∧ e.1 ≠ k := by
  have hmem := alookup_mem hlk
  obtain ⟨a, l1, l2, hl1, hpa, hdec, herase⟩ :=
    List.exists_of_eraseP (p := fun e => decide (e.1 = k)) hmem (by simp)
  intro e he
  rw [herase] at he
  constructor
  · rw [hdec]
    rcases List.mem_append.mp he with h | h
    · exact List.mem_append_left _ h
    · exact List.mem_append_right _ (List.mem_cons_of_mem _ h)
  · rcases List.mem_append.mp he with h | h
    · have := hl1 e h
      simpa using this
    · simp only [decide_eq_true_eq] at hpa
      rw [hdec] at hnd
      simp only [List.map_append, List.map_cons] at hnd
      rw [List.nodup_middle] at hnd
      rw [List.nodup_cons] at hnd
      intro hek
      exact hnd.1 (by
        rw [hpa, ← hek]
        exact List.mem_append_right _ (List.mem_map_of_mem (fun e => e.1) h))

/-- Locating a node in a duplicate-free chain splits it with clean flanks. -/
theorem findNode?_decomp {l : OrderLinkedList} {oid : Nat} {node : OrderNode}
    (h : l.findNode? oid = some node)
    (hnd : (l.nodes.map (fun n => n.order_id)).Nodup) :
    ∃ l1 l2, l.nodes = l1 ++ node :: l2 ∧ node.order_id = oid ∧
      (∀ x ∈ l1, x.order_id ≠ oid) ∧ (∀ x ∈ l2, x.order_id ≠ oid) := by
  obtain ⟨l1, l2, hsplit, hl1, hpa⟩ := find?_split h
  simp only [decide_eq_true_eq] at hpa
  refine ⟨l1, l2, hsplit, hpa, ?_, ?_⟩
  · intro x hx
    have := hl1 x hx
    simpa using this
  · intro x hx hxid
    rw [hsplit] at hnd
    simp only [List.map_append, List.map_cons] at hnd
    rw [List.nodup_middle, List.nodup_cons] at hnd
    exact hnd.1 (by
      rw [hpa, ← hxid]
      exact List.mem_append_right _ (List.mem_map_of_mem (fun n => n.order_id) hx))

/-- Inversion of a successful `remove` through the located node. -/
theorem remove_ok_inv {l : OrderLinkedList} {oid amount : Nat} {l' : OrderLinkedList}
    {node : OrderNode} (hfind : l.findNode? oid = some node)
    (h : l.remove oid amount = .ok l') :
    amount ≤ node.size ∧
    ((node.size - amount = 0 ∧
      l' = { l with depth := l.depth - amount, num_orders := l.num_orders - 1,
                    nodes := l.nodes.eraseP (fun n => decide (n.order_id = oid)) }) ∨
     (node.size - amount ≠ 0 ∧
      l' = { l with depth := l.depth - amount,
                    nodes := updateNodeSize l.nodes oid (node.size - amount) })) := by
  unfold OrderLinkedList.remove at h
  rw [hfind] at h
  dsimp only at h
  split at h
  · simp at h
  split at h
  case isFalse.isTrue hgt hz =>
    simp only [Except.ok.injEq] at h
    exact ⟨by omega, Or.inl ⟨hz, h.symm⟩⟩
  case isFalse.isFalse hgt hz =>
    simp only [Except.ok.injEq] at h
    exact ⟨by omega, Or.inr ⟨hz, h.symm⟩⟩

/-- Shrinking a resting node in place (leaving it a positive size) and
bumping its `ts_recv` preserves the book invariant. -/
theorem shrink_preserves_valid {b : OrderBook} {oid amount ts : Nat} {side : Char}
    {price : ℚ} {lvl lvl' : OrderLinkedList} {node : OrderNode}
    (hv : b.Valid)
    (hlook : alookup b.orders oid = some (side, price)) (hsideOk : sideOk side)
    (hg : sdGet? (b.sideTree side) price = some lvl)
    (hfind : lvl.findNode? oid = some node)
    (hrem : lvl.remove oid amount = .ok lvl') (hz : node.size - amount ≠ 0) :
    (b.setSideTree side (sdInsert (b.sideTree side) price
      (lvl'.setTsRecv oid ts))).Valid := by
  have hTW := hv.1
  have hND := hv.2.1
  have hIDX := hv.2.2.1
  have hNI := hv.2.2.2
  have hlvlE := (valid_treeWF hv hsideOk).2 (price, lvl) (sdGet?_mem hg)
  have hlvlpr : lvl.price = price := hlvlE.1
  obtain ⟨⟨hnum, hdep, hfacts, hnd⟩, hne⟩ := hlvlE.2
  obtain ⟨l1, l2, hsplitn, hnodeid, hl1, hl2⟩ := findNode?_decomp hfind hnd
  obtain ⟨hle, hremc⟩ := remove_ok_inv hfind hrem
  have hnodemem : node ∈ lvl.nodes := by
    rw [hsplitn]; exact List.mem_append_right _ (List.mem_cons_self _ _)
  have hlen : lvl.nodes.length = l1.length + 1 + l2.length := by
    rw [hsplitn]; simp; omega
  have hsum : (lvl.nodes.map (fun n => n.size)).sum =
      (l1.map (fun n => n.size)).sum + node.size + (l2.map (fun n => n.size)).sum := by
    rw [hsplitn]; simp; omega
  have hids : lvl.nodes.map (fun n => n.order_id) =
      l1.map (fun n => n.order_id) ++ oid :: l2.map (fun n => n.order_id) := by
    rw [hsplitn]; simp [hnodeid]
  rcases hremc with ⟨hz', hlvl'⟩ | ⟨hz', hlvl'⟩
  · exact absurd hz' hz
  have hupd : updateNodeSize lvl.nodes oid (node.size - amount) =
      l1 ++ { node with size := node.size - amount } :: l2 := by
    rw [hsplitn]
    exact updateNodeSize_append l1 node l2 oid _ hl1 hnodeid
  have hT : ({ lvl with depth := lvl.depth - (amount : Int),
                        nodes := updateNodeSize lvl.nodes oid (node.size - amount) } :
        OrderLinkedList).setTsRecv oid ts =
      { lvl with depth := lvl.depth - (amount : Int),
                 nodes := l1 ++ { node with size := node.size - amount, ts_recv := ts } :: l2 } := by
    unfold OrderLinkedList.setTsRecv
    simp only [hupd]
    rw [updateNodeTs_append l1 { node with size := node.size - amount } l2 oid
      ts hl1 hnodeid]
  rw [hlvl', hT]
  have hidsT : (l1 ++ ({ node with size := node.size - amount, ts_recv := ts } :
      OrderNode) :: l2).map (fun n => n.order_id) =
      lvl.nodes.map (fun n => n.order_id) := by
    rw [hids]
    simp [hnodeid]
  refine ⟨?_, ?_, ?_, ?_⟩
  · intro s hs
    by_cases heq : s = side
    · subst heq
      rw [sideTree_setSideTree_self]
      refine ⟨pairwise_sdInsert _ _ (valid_treeWF hv hsideOk).1, ?_⟩
      intro e he
      rcases mem_sdInsert he with rfl | hein
      · refine ⟨hlvlpr, ⟨?_, ?_, ?_, ?_⟩, by simp⟩
        · simp only
          rw [hnum, hlen]
          simp
          omega
        · simp only
          rw [hdep, hsum]
          simp
          omega
        · intro n hn
          simp only at hn
          rcases List.mem_append.mp hn with hh | hh
          · exact hfacts n (by rw [hsplitn]; exact List.mem_append_left _ hh)
          · rcases List.mem_cons.mp hh with rfl | hh
            · have := hfacts node hnodemem
              refine ⟨by simp; omega, by simp [this.2.1], by simp [this.2.2]⟩
            · exact hfacts n (by
                rw [hsplitn]
                exact List.mem_append_right _ (List.mem_cons_of_mem _ hh))
        · simp only
          rw [hidsT]
          exact hnd
      · exact (valid_treeWF hv hsideOk).2 e hein
    · rw [sideTree_setSideTree_ne b (mem_sideOk hs) hsideOk heq]
      exact hTW s hs
  · rw [orders_setSideTree]
    exact hND
  · intro e he
    rw [orders_setSideTree] at he
    refine ⟨(hIDX e he).1, ?_⟩
    obtain ⟨lvlx, hgx, hmx⟩ := levelHasId_elim (hIDX e he).2
    by_cases heq : e.2.1 = side
    · rw [heq, sideTree_setSideTree_self]
      rw [heq] at hgx
      by_cases hp : e.2.2 = price
      · rw [hp] at hgx
        rw [hg] at hgx
        simp only [Option.some.injEq] at hgx
        subst hgx
        rw [hp]
        refine levelHasId_intro (sdGet?_insert_self _ _ _) ?_
        simp only
        rw [hidsT]
        exact hmx
      · exact levelHasId_intro (by rw [sdGet?_insert_ne _ _ _ _ hp]; exact hgx) hmx
    · rw [sideTree_setSideTree_ne b (hIDX e he).1 hsideOk heq]
      exact levelHasId_intro hgx hmx
  · intro s hs kl hkl n hn
    rw [orders_setSideTree]
    by_cases heq : s = side
    · subst heq
      rw [sideTree_setSideTree_self] at hkl
      rcases mem_sdInsert hkl with rfl | hold
      · simp only at hn
        rcases List.mem_append.mp hn with hh | hh
        · exact hNI s hs (price, lvl) (sdGet?_mem hg) n
            (by rw [hsplitn]; exact List.mem_append_left _ hh)
        · rcases List.mem_cons.mp hh with rfl | hh
          · simp only [hnodeid]
            rw [hlook]
          · exact hNI s hs (price, lvl) (sdGet?_mem hg) n
              (by rw [hsplitn]
                  exact List.mem_append_right _ (List.mem_cons_of_mem _ hh))
      · exact hNI s hs kl hold n hn
    · rw [sideTree_setSideTree_ne b (mem_sideOk hs) hsideOk heq] at hkl
      exact hNI s hs kl hkl n hn

/-- `_cancel` preserves the book invariant. -/
theorem _cancel_preserves_valid {b : OrderBook} {m : Message} {b' : OrderBook}
    (hv : b.Valid) (h : b._cancel m = .ok b') : b'.Valid := by
  have hTW := hv.1
  have hND := hv.2.1
  have hIDX := hv.2.2.1
  have hNI := hv.2.2.2
  unfold OrderBook._cancel at h
  split at h
  · simp at h
  rename_i pr side price hlook
  split at h
  case isFalse => simp at h
  rename_i hsideOk
  dsimp only at h
  split at h
  · simp at h
  rename_i lvl hg
  split at h
  · simp at h
  rename_i node hfind
  split at h
  · simp at h
  rename_i lvl' hrem
  -- shared facts
  have hlvlE := (valid_treeWF hv hsideOk).2 (price, lvl) (sdGet?_mem hg)
  have hlvlpr : lvl.price = price := hlvlE.1
  have hlvlWF : lvl.WF side := hlvlE.2
  obtain ⟨⟨hnum, hdep, hfacts, hnd⟩, hne⟩ := hlvlWF
  obtain ⟨l1, l2, hsplitn, hnodeid, hl1, hl2⟩ := findNode?_decomp hfind hnd
  obtain ⟨hle, hremc⟩ := remove_ok_inv hfind hrem
  have hnodemem : node ∈ lvl.nodes := by rw [hsplitn]; exact List.mem_append_right _ (List.mem_cons_self _ _)
  have hnodefacts := hfacts node hnodemem
  have hlen : lvl.nodes.length = l1.length + 1 + l2.length := by rw [hsplitn]; simp; omega
  have hsum : (lvl.nodes.map (fun n => n.size)).sum =
      (l1.map (fun n => n.size)).sum + node.size + (l2.map (fun n => n.size)).sum := by
    rw [hsplitn]; simp; omega
  have hids : lvl.nodes.map (fun n => n.order_id) =
      l1.map (fun n => n.order_id) ++ m.order_id :: l2.map (fun n => n.order_id) := by
    rw [hsplitn]; simp [hnodeid]
  have herasen : lvl.nodes.eraseP (fun n => decide (n.order_id = m.order_id)) = l1 ++ l2 :=
    hsplitn ▸ eraseP_id_append l1 node l2 m.order_id hl1 hnodeid
  split at h
  case isTrue hz =>
    -- full removal
    have hsz : m.size = node.size := by omega
    rcases hremc with ⟨hz', hlvl'⟩ | ⟨hz', hlvl'⟩
    swap
    · exact absurd hz hz'
    rw [herasen] at hlvl'
    rw [hlvl'] at h
    have hnum' : ({ lvl with depth := lvl.depth - (m.size : Int),
                             num_orders := lvl.num_orders - 1,
                             nodes := l1 ++ l2 } : OrderLinkedList).num_orders
        = lvl.num_orders - 1 := rfl
    by_cases hz0 : ({ lvl with depth := lvl.depth - (m.size : Int),
                               num_orders := lvl.num_orders - 1,
                               nodes := l1 ++ l2 } : OrderLinkedList).num_orders = 0
    · -- the level empties and is deleted
      rw [if_pos hz0] at h
      simp only [Except.ok.injEq] at h
      have hnil : l1 = [] ∧ l2 = [] := by
        rw [hnum'] at hz0
        rw [hnum] at hz0
        rw [hlen] at hz0
        constructor <;>
          [ exact List.length_eq_zero.mp (by omega);
            exact List.length_eq_zero.mp (by omega) ]
      have htree : sdErase (sdInsert (b.sideTree side) price
          { lvl with depth := lvl.depth - (m.size : Int),
                     num_orders := lvl.num_orders - 1, nodes := l1 ++ l2 }) price =
          sdErase (b.sideTree side) price :=
        sdErase_sdInsert (valid_treeWF hv hsideOk).1 _ _
      rw [htree] at h
      subst h
      refine ⟨?_, ?_, ?_, ?_⟩
      · intro s hs
        rw [sideTree_orders_update]
        by_cases heq : s = side
        · subst heq
          rw [sideTree_setSideTree_self]
          refine ⟨List.Pairwise.sublist (List.eraseP_sublist _) (valid_treeWF hv hsideOk).1, ?_⟩
          intro e he
          exact (valid_treeWF hv hsideOk).2 e (mem_sdErase he)
        · rw [sideTree_setSideTree_ne b (mem_sideOk hs) hsideOk heq]
          exact hTW s hs
      · exact keys_nodup_eraseP _ _ hND
      · intro e he
        obtain ⟨hein, hkne⟩ := mem_eraseP_ne_key hND hlook e he
        refine ⟨(hIDX e hein).1, ?_⟩
        rw [sideTree_orders_update]
        obtain ⟨lvlx, hgx, hmx⟩ := levelHasId_elim (hIDX e hein).2
        by_cases heq : e.2.1 = side
        · rw [heq, sideTree_setSideTree_self]
          rw [heq] at hgx
          by_cases hp : e.2.2 = price
          · rw [hp] at hgx
            rw [hg] at hgx
            simp only [Option.some.injEq] at hgx
            subst hgx
            rw [hids] at hmx
            rcases List.mem_append.mp hmx with hmm | hmm
            · rw [hnil.1] at hmm; simp at hmm
            · rcases List.mem_cons.mp hmm with hmm | hmm
              · exact absurd hmm hkne
              · rw [hnil.2] at hmm; simp at hmm
          · exact levelHasId_intro (by rw [sdGet?_erase_ne _ _ _ hp]; exact hgx) hmx
        · rw [sideTree_setSideTree_ne b (hIDX e hein).1 hsideOk heq]
          exact levelHasId_intro hgx hmx
      · intro s hs kl hkl n hn
        rw [sideTree_orders_update] at hkl
        by_cases heq : s = side
        · subst heq
          rw [sideTree_setSideTree_self] at hkl
          have hklb : kl ∈ b.sideTree s := mem_sdErase hkl
          have hni := hNI s hs kl hklb n hn
          have hnid : n.order_id ≠ m.order_id := by
            intro hh
            rw [hh, hlook] at hni
            simp only [Option.some.injEq, Prod.mk.injEq] at hni
            have hklp : kl.1 = price := hni.2.symm
            have : sdGet? (sdErase (b.sideTree s) price) price = none :=
              sdGet?_erase_self _ _ (valid_treeWF hv hsideOk).1
            have hmem2 : sdGet? (sdErase (b.sideTree s) price) kl.1 = some kl.2 :=
              sdGet?_of_mem (List.Pairwise.sublist (List.eraseP_sublist _) (valid_treeWF hv hsideOk).1) (by
                rw [show (kl.1, kl.2) = kl from rfl]; exact hkl)
            rw [hklp] at hmem2
            rw [this] at hmem2
            exact Option.noConfusion hmem2
          rw [alookup_eraseP_ne _ _ _ hnid]
          exact hni
        · rw [sideTree_setSideTree_ne b (mem_sideOk hs) hsideOk heq] at hkl
          have hni := hNI s hs kl hkl n hn
          have hnid : n.order_id ≠ m.order_id := by
            intro hh
            rw [hh, hlook] at hni
            simp only [Option.some.injEq, Prod.mk.injEq] at hni
            exact heq hni.1.symm
          rw [alookup_eraseP_ne _ _ _ hnid]
          exact hni
    · -- the level keeps other orders
      rw [if_neg hz0] at h
      simp only [Except.ok.injEq] at h
      subst h
      have hlem : (l1 ++ l2) ≠ [] := by
        intro hh
        rw [hnum', hnum, hlen] at hz0
        have : l1.length + l2.length = 0 := by
          have := congrArg List.length hh
          simpa using this
        omega
      refine ⟨?_, ?_, ?_, ?_⟩
      · intro s hs
        rw [sideTree_orders_update]
        by_cases heq : s = side
        · subst heq
          rw [sideTree_setSideTree_self]
          refine ⟨pairwise_sdInsert _ _ (valid_treeWF hv hsideOk).1, ?_⟩
          intro e he
          rcases mem_sdInsert he with rfl | hein
          · refine ⟨hlvlpr, ⟨?_, ?_, ?_, ?_⟩, hlem⟩
            · simp only
              rw [hnum, hlen]
              simp
              omega
            · simp only
              rw [hdep, hsum, hsz]
              simp
              omega
            · intro n hn
              simp only at hn
              have hnmem : n ∈ lvl.nodes := by
                rw [hsplitn]
                rcases List.mem_append.mp hn with hh | hh
                · exact List.mem_append_left _ hh
                · exact List.mem_append_right _ (List.mem_cons_of_mem _ hh)
              exact hfacts n hnmem
            · simp only
              have : (l1 ++ l2).map (fun n => n.order_id) =
                  l1.map (fun n => n.order_id) ++ l2.map (fun n => n.order_id) := by simp
              rw [this]
              have hsub : (l1.map (fun n => n.order_id) ++ l2.map (fun n => n.order_id)).Sublist
                  (lvl.nodes.map (fun n => n.order_id)) := by
                rw [hids]
                exact List.Sublist.append (List.Sublist.refl _)
                  (List.sublist_cons_self _ _)
              exact hsub.nodup hnd
          · exact (valid_treeWF hv hsideOk).2 e hein
        · rw [sideTree_setSideTree_ne b (mem_sideOk hs) hsideOk heq]
          exact hTW s hs
      · exact keys_nodup_eraseP _ _ hND
      · intro e he
        obtain ⟨hein, hkne⟩ := mem_eraseP_ne_key hND hlook e he
        refine ⟨(hIDX e hein).1, ?_⟩
        rw [sideTree_orders_update]
        obtain ⟨lvlx, hgx, hmx⟩ := levelHasId_elim (hIDX e hein).2
        by_cases heq : e.2.1 = side
        · rw [heq, sideTree_setSideTree_self]
          rw [heq] at hgx
          by_cases hp : e.2.2 = price
          · rw [hp] at hgx
            rw [hg] at hgx
            simp only [Option.some.injEq] at hgx
            subst hgx
            rw [hp]
            refine levelHasId_intro (sdGet?_insert_self _ _ _) ?_
            simp only
            rw [hids] at hmx
            rcases List.mem_append.mp hmx with hmm | hmm
            · simp only [List.map_append]
              exact List.mem_append_left _ hmm
            · rcases List.mem_cons.mp hmm with hmm | hmm
              · exact absurd hmm hkne
              · simp only [List.map_append]
                exact List.mem_append_right _ hmm
          · exact levelHasId_intro (by rw [sdGet?_insert_ne _ _ _ _ hp]; exact hgx) hmx
        · rw [sideTree_setSideTree_ne b (hIDX e hein).1 hsideOk heq]
          exact levelHasId_intro hgx hmx
      · intro s hs kl hkl n hn
        rw [sideTree_orders_update] at hkl
        by_cases heq : s = side
        · subst heq
          rw [sideTree_setSideTree_self] at hkl
          rcases mem_sdInsert hkl with rfl | hold
          · simp only at hn
            have hnmem : n ∈ lvl.nodes := by
              rw [hsplitn]
              rcases List.mem_append.mp hn with hh | hh
              · exact List.mem_append_left _ hh
              · exact List.mem_append_right _ (List.mem_cons_of_mem _ hh)
            have hnid : n.order_id ≠ m.order_id := by
              rcases List.mem_append.mp hn with hh | hh
              · exact hl1 n hh
              · exact hl2 n hh
            rw [alookup_eraseP_ne _ _ _ hnid]
            exact hNI s hs (price, lvl) (sdGet?_mem hg) n hnmem
          · have hni := hNI s hs kl hold n hn
            have hnid : n.order_id ≠ m.order_id := by
              intro hh
              rw [hh, hlook] at hni
              simp only [Option.some.injEq, Prod.mk.injEq] at hni
              have hklp : kl.1 = price := hni.2.symm
              have hklv : kl.2 = lvl := by
                have h1 : sdGet? (b.sideTree s) kl.1 = some kl.2 :=
                  sdGet?_of_mem (valid_treeWF hv hsideOk).1 (by
                    rw [show (kl.1, kl.2) = kl from rfl]; exact hold)
                rw [hklp, hg] at h1
                exact (Option.some.injEq _ _ ▸ h1).symm
              have hklmem : kl ∈ sdInsert (b.sideTree s) price
                  { lvl with depth := lvl.depth - (m.size : Int),
                             num_orders := lvl.num_orders - 1, nodes := l1 ++ l2 } := hkl
              have h2 : sdGet? (sdInsert (b.sideTree s) price
                  { lvl with depth := lvl.depth - (m.size : Int),
                             num_orders := lvl.num_orders - 1, nodes := l1 ++ l2 }) kl.1 =
                  some kl.2 :=
                sdGet?_of_mem (pairwise_sdInsert _ _ (valid_treeWF hv hsideOk).1) (by
                  rw [show (kl.1, kl.2) = kl from rfl]; exact hklmem)
              rw [hklp, sdGet?_insert_self] at h2
              simp only [Option.some.injEq] at h2
              rw [hklv] at h2
              have := congrArg OrderLinkedList.num_orders h2
              simp only at this
              omega
            rw [alookup_eraseP_ne _ _ _ hnid]
            exact hni
        · rw [sideTree_setSideTree_ne b (mem_sideOk hs) hsideOk heq] at hkl
          have hni := hNI s hs kl hkl n hn
          have hnid : n.order_id ≠ m.order_id := by
            intro hh
            rw [hh, hlook] at hni
            simp only [Option.some.injEq, Prod.mk.injEq] at hni
            exact heq hni.1.symm
          rw [alookup_eraseP_ne _ _ _ hnid]
          exact hni
  case isFalse hz =>
    -- partial cancel: shrink in place, bump the timestamp
    rcases hremc with ⟨hz', hlvl'⟩ | ⟨hz', hlvl'⟩
    · exact absurd hz' hz
    simp only [Except.ok.injEq] at h
    subst h
    have hupd : updateNodeSize lvl.nodes m.order_id (node.size - m.size) =
        l1 ++ { node with size := node.size - m.size } :: l2 := by
      rw [hsplitn]
      exact updateNodeSize_append l1 node l2 m.order_id _ hl1 hnodeid
    have hT : ({ lvl with depth := lvl.depth - (m.size : Int),
                          nodes := updateNodeSize lvl.nodes m.order_id (node.size - m.size) } :
          OrderLinkedList).setTsRecv m.order_id m.ts_recv =
        { lvl with depth := lvl.depth - (m.size : Int),
                   nodes := l1 ++ { node with size := node.size - m.size, ts_recv := m.ts_recv } :: l2 } := by
      unfold OrderLinkedList.setTsRecv
      simp only [hupd]
      rw [updateNodeTs_append l1 { node with size := node.size - m.size } l2 m.order_id
        m.ts_recv hl1 hnodeid]
    rw [hlvl', hT]
    have hidsT : (l1 ++ ({ node with size := node.size - m.size, ts_recv := m.ts_recv } :
        OrderNode) :: l2).map (fun n => n.order_id) =
        lvl.nodes.map (fun n => n.order_id) := by
      rw [hids]
      simp [hnodeid]
    refine ⟨?_, ?_, ?_, ?_⟩
    · intro s hs
      by_cases heq : s = side
      · subst heq
        rw [sideTree_setSideTree_self]
        refine ⟨pairwise_sdInsert _ _ (valid_treeWF hv hsideOk).1, ?_⟩
        intro e he
        rcases mem_sdInsert he with rfl | hein
        · refine ⟨hlvlpr, ⟨?_, ?_, ?_, ?_⟩, by simp⟩
          · simp only
            rw [hnum, hlen]
            simp
            omega
          · simp only
            rw [hdep, hsum]
            simp
            omega
          · intro n hn
            simp only at hn
            rcases List.mem_append.mp hn with hh | hh
            · exact hfacts n (by rw [hsplitn]; exact List.mem_append_left _ hh)
            · rcases List.mem_cons.mp hh with rfl | hh
              · have := hfacts node hnodemem
                refine ⟨by simp; omega, by simp [this.2.1], by simp [this.2.2]⟩
              · exact hfacts n (by
                  rw [hsplitn]
                  exact List.mem_append_right _ (List.mem_cons_of_mem _ hh))
          · simp only
            rw [hidsT]
            exact hnd
        · exact (valid_treeWF hv hsideOk).2 e hein
      · rw [sideTree_setSideTree_ne b (mem_sideOk hs) hsideOk heq]
        exact hTW s hs
    · rw [orders_setSideTree]
      exact hND
    · intro e he
      rw [orders_setSideTree] at he
      refine ⟨(hIDX e he).1, ?_⟩
      obtain ⟨lvlx, hgx, hmx⟩ := levelHasId_elim (hIDX e he).2
      by_cases heq : e.2.1 = side
      · rw [heq, sideTree_setSideTree_self]
        rw [heq] at hgx
        by_cases hp : e.2.2 = price
        · rw [hp] at hgx
          rw [hg] at hgx
          simp only [Option.some.injEq] at hgx
          subst hgx
          rw [hp]
          refine levelHasId_intro (sdGet?_insert_self _ _ _) ?_
          simp only
          rw [hidsT]
          exact hmx
        · exact levelHasId_intro (by rw [sdGet?_insert_ne _ _ _ _ hp]; exact hgx) hmx
      · rw [sideTree_setSideTree_ne b (hIDX e he).1 hsideOk heq]
        exact levelHasId_intro hgx hmx
    · intro s hs kl hkl n hn
      rw [orders_setSideTree]
      by_cases heq : s = side
      · subst heq
        rw [sideTree_setSideTree_self] at hkl
        rcases mem_sdInsert hkl with rfl | hold
        · simp only at hn
          rcases List.mem_append.mp hn with hh | hh
          · exact hNI s hs (price, lvl) (sdGet?_mem hg) n
              (by rw [hsplitn]; exact List.mem_append_left _ hh)
          · rcases List.mem_cons.mp hh with rfl | hh
            · simp only [hnodeid]
              rw [hlook]
            · exact hNI s hs (price, lvl) (sdGet?_mem hg) n
                (by rw [hsplitn]
                    exact List.mem_append_right _ (List.mem_cons_of_mem _ hh))
        · exact hNI s hs kl hold n hn
      · rw [sideTree_setSideTree_ne b (mem_sideOk hs) hsideOk heq] at hkl
        exact hNI s hs kl hkl n hn

/-- `_modify` (of a positive size) preserves the book invariant. -/
theorem _modify_preserves_valid {b : OrderBook} {m : Message} {b' : OrderBook}
    (hv : b.Valid) (hpos : 0 < m.size) (h : b._modify m = .ok b') : b'.Valid := by
  unfold OrderBook._modify at h
  split at h
  · simp at h
  rename_i pr side price hlook
  split at h
  case isFalse => simp at h
  rename_i hsideOk
  split at h
  · simp at h
  rename_i lvl hg
  split at h
  case isFalse => simp at h
  rename_i hsm
  split at h
  case isTrue hpr =>
    split at h
    · simp at h
    rename_i node hfind
    split at h
    case isTrue hgt =>
      split at h
      · simp at h
      rename_i b1 hcan
      exact _add_preserves_valid (_cancel_preserves_valid hv hcan) hpos h
    case isFalse hgt =>
      split at h
      · simp at h
      rename_i lvl' hrem
      simp only [Except.ok.injEq] at h
      subst h
      exact shrink_preserves_valid hv hlook hsideOk hg hfind hrem (by omega)
  case isFalse hpr =>
    split at h
    · simp at h
    rename_i b1 hcan
    exact _add_preserves_valid (_cancel_preserves_valid hv hcan) hpos h

/-- The timestamp does not participate in the invariant. -/
theorem valid_ts_update (x : OrderBook) (v : Nat) :
    (({ x with ts_last_update := v } : OrderBook)).Valid ↔ x.Valid := Iff.rfl

/-- A fresh book is valid. -/
theorem valid_fresh (instrument publisher : Nat) : (OrderBook.fresh instrument publisher).Valid := by
  refine ⟨?_, ?_, ?_, ?_⟩
  · intro s hs
    unfold OrderBook.sideTree OrderBook.fresh
    constructor
    · split <;> exact List.Pairwise.nil
    · split <;> simp
  · simp [OrderBook.fresh]
  · simp [OrderBook.fresh]
  · intro s hs kl hkl
    unfold OrderBook.sideTree OrderBook.fresh at hkl
    revert hkl
    split <;> simp

/-- `_clear` leaves a valid book. -/
theorem valid_clear (b : OrderBook) : (b._clear).Valid := by
  refine ⟨?_, ?_, ?_, ?_⟩
  · intro s hs
    unfold OrderBook.sideTree OrderBook._clear
    constructor
    · split <;> exact List.Pairwise.nil
    · split <;> simp
  · simp [OrderBook._clear]
  · simp [OrderBook._clear]
  · intro s hs kl hkl
    unfold OrderBook.sideTree OrderBook._clear at hkl
    revert hkl
    split <;> simp

/-- A successful `apply` whose add/modify sizes are positive preserves the
book invariant. -/
theorem apply_preserves_valid {b : OrderBook} {m : Message} {b' : OrderBook}
    (hv : b.Valid) (hsz : (m.action = 'A' ∨ m.action = 'M') → 0 < m.size)
    (h : b.apply m = .ok b') : b'.Valid := by
  unfold OrderBook.apply at h
  split at h
  · simp at h
  dsimp only at h
  split at h
  · simp at h
  rename_i b'' heq
  simp only [Except.ok.injEq] at h
  rw [← h, valid_ts_update]
  split at heq
  · simp only [Except.ok.injEq] at heq
    rw [← heq]
    exact hv
  split at heq
  · simp only [Except.ok.injEq] at heq
    rw [← heq]
    exact valid_clear b
  split at heq
  case isTrue hA => exact _add_preserves_valid hv (hsz (Or.inl hA)) heq
  split at heq
  · exact _cancel_preserves_valid hv heq
  split at heq
  case isTrue hM => exact _modify_preserves_valid hv (hsz (Or.inr hM)) heq
  · simp at heq

/-- The books reachable by successful `apply` calls whose add/modify messages
carry positive sizes. -/
inductive OrderBook.ReachableSzPos : OrderBook → Prop where
  | fresh (instrument publisher : Nat) :
      OrderBook.ReachableSzPos (OrderBook.fresh instrument publisher)
  | step {b b' : OrderBook} (m : Message) (hprev : OrderBook.ReachableSzPos b)
      (happ : b.apply m = .ok b')
      (hsz : (m.action = 'A' ∨ m.action = 'M') → 0 < m.size) :
      OrderBook.ReachableSzPos b'

theorem reachable_valid {b : OrderBook} (h : b.ReachableSzPos) : b.Valid := by
  induction h with
  | fresh i p => exact valid_fresh i p
  | step m hr happ hsz ih => exact apply_preserves_valid ih hsz happ

/-- The queue at key `p` holds exactly one node with the given order id. -/
def reachedOnce (t : List (ℚ × OrderLinkedList)) (p : ℚ) (oid : Nat) : Prop :=
  match sdGet? t p with
  | none => False
  | some lvl => (lvl.nodes.filter (fun n => decide (n.order_id = oid))).length = 1

instance (t : List (ℚ × OrderLinkedList)) (p : ℚ) (oid : Nat) :
    Decidable (reachedOnce t p oid) := by
  unfold reachedOnce
  split <;> infer_instance

/-- C4's claimed invariant, word for word: every resting level has a positive
order count matching its chain, a depth equal to the sum of its sizes and no
zero-size node, and every id-index entry is reachable in the queue its handle
names exactly once. -/
def OrderBook.ClaimedInv (b : OrderBook) : Prop :=
  (∀ s ∈ (['A', 'B'] : List Char), ∀ kl ∈ b.sideTree s,
    0 < kl.2.num_orders ∧ kl.2.num_orders = (kl.2.nodes.length : Int) ∧
    kl.2.depth = (((kl.2.nodes.map (fun n => n.size)).sum : Nat) : Int) ∧
    ∀ n ∈ kl.2.nodes, n.size ≠ 0) ∧
  (∀ e ∈ b.orders, reachedOnce (b.sideTree e.2.1) e.2.2 e.1)

instance (b : OrderBook) : Decidable b.ClaimedInv := by
  unfold OrderBook.ClaimedInv
  infer_instance

theorem filter_id_length (l : List OrderNode) (oid : Nat) :
    (l.filter (fun n => decide (n.order_id = oid))).length =
    ((l.map (fun n => n.order_id)).filter (fun i => decide (i = oid))).length := by
  induction l with
  | nil => rfl
  | cons x xs ih =>
    by_cases h : x.order_id = oid <;> simp [h, ih]

theorem nodup_filter_length {l : List Nat} (hnd : l.Nodup) {oid : Nat} (hm : oid ∈ l) :
    (l.filter (fun i => decide (i = oid))).length = 1 := by
  induction l with
  | nil => simp at hm
  | cons x xs ih =>
    rw [List.nodup_cons] at hnd
    by_cases h : x = oid
    · subst h
      rw [List.filter_cons_of_pos (by simp)]
      rw [List.filter_eq_nil_iff.mpr (by
        intro i hi
        simp only [decide_eq_true_eq]
        intro hh
        exact hnd.1 (hh ▸ hi))]
      rfl
    · rw [List.filter_cons_of_neg (by simp [h])]
      rcases List.mem_cons.mp hm with rfl | hm
      · exact absurd rfl h
      · exact ih hnd.2 hm

/-- The inductive invariant implies the claim's stated invariant. -/
theorem valid_claimedInv {b : OrderBook} (hv : b.Valid) : b.ClaimedInv := by
  constructor
  · intro s hs kl hkl
    obtain ⟨hpr, ⟨hnum, hdep, hfacts, hnd⟩, hne⟩ := (hv.1 s hs).2 kl hkl
    refine ⟨?_, hnum, hdep, ?_⟩
    · rw [hnum]
      have : kl.2.nodes.length ≠ 0 := by
        intro hh
        exact hne (List.length_eq_zero.mp hh)
      omega
    · intro n hn
      exact Nat.pos_iff_ne_zero.mp (hfacts n hn).1
  · intro e he
    obtain ⟨lvl, hg, hm⟩ := levelHasId_elim ((hv.2.2.1 e he).2)
    unfold reachedOnce
    rw [hg]
    show (lvl.nodes.filter (fun n => decide (n.order_id = e.1))).length = 1
    rw [filter_id_length]
    have hsideOk := (hv.2.2.1 e he).1
    have hnd := (((hv.1 e.2.1 (sideOk_mem hsideOk)).2 _ (sdGet?_mem hg)).2).1.2.2.2
    exact nodup_filter_length hnd hm

/-- **C4 (amended: add/modify messages carry positive sizes).** Every book
reachable from a fresh book by successful `apply` calls whose `A`/`M`
messages have `0 < size` satisfies the claimed invariant. -/
theorem claim_C4_reachable_invariants (b : OrderBook) (h : b.ReachableSzPos) :
    b.ClaimedInv :=
  valid_claimedInv (reachable_valid h)

def c4Msg : Message := ⟨'A', 7, 5, 2, 1, 0, 'B', 10, 0, 100⟩

def c4Book : OrderBook :=
  ⟨1, 2, 10, [(7, ('B', 100))], [(100, ⟨100, 5, 1, [⟨7, 100, 5, 2, 1, 'B', 10⟩]⟩)], []⟩

/-- C4's amended statement at a concrete input: the book after one positive
add from fresh. -/
theorem claim_C4_reachable_invariants_witness : c4Book.ClaimedInv :=
  claim_C4_reachable_invariants c4Book
    (OrderBook.ReachableSzPos.step c4Msg (OrderBook.ReachableSzPos.fresh 1 2)
      (by decide) (fun _ => by decide))

def c4MsgZero : Message := ⟨'A', 7, 0, 2, 1, 0, 'B', 10, 0, 100⟩

/-- **C4 (counterexample to the claim as stated).** A single successful apply
from a fresh book — an add of size 0, which `_add` accepts — yields a book
holding a zero-size node, violating the claimed invariant; and a successful
modify-to-zero (order 1 of `c1Book` shrunk to size 0) leaves an emptied level
resting in the bid map (`num_orders = 0`) and a dangling id-index entry, both
also violating it. -/
theorem claim_C4_counterexample :
    (OrderBook.fresh 1 2).apply c4MsgZero =
      .ok ⟨1, 2, 10, [(7, ('B', 100))], [(100, ⟨100, 0, 1, [⟨7, 100, 0, 2, 1, 'B', 10⟩]⟩)], []⟩ ∧
    ¬ (⟨1, 2, 10, [(7, ('B', 100))],
        [(100, ⟨100, 0, 1, [⟨7, 100, 0, 2, 1, 'B', 10⟩]⟩)], []⟩ : OrderBook).ClaimedInv ∧
    c1Book.apply c6Msg0 =
      .ok ⟨1, 2, 77, [(1, ('B', 100))], [(100, ⟨100, 0, 0, []⟩)], []⟩ ∧
    ¬ (⟨1, 2, 77, [(1, ('B', 100))], [(100, ⟨100, 0, 0, []⟩)], []⟩ : OrderBook).ClaimedInv :=
  ⟨by decide, by decide, by decide, by decide⟩
